import Mathlib

/-!
# Verification of the `upredis` coordination library

A shallow embedding, in Lean 4, of the core algorithms of a Redis-backed
coordination library: three rate-limiting strategies (fixed window, sliding
window, token bucket), and a stampede-guarded cache-aside protocol.

The remote store is modelled per component as a total function from key
strings to that component's value type; Redis commands (`INCR`, `GET`,
`SET NX EX`, `DEL`, `ZREMRANGEBYSCORE`, `ZADD`, `ZCARD`, `HGET`/`HSET`) are
modelled by their documented semantics on those stores.  JavaScript numbers
appearing in the algorithms are modelled as `ℕ`/`ℤ` where the source only
ever holds integers (timestamps from `Date.now()`, counters) and as `ℚ`
where the source computes fractional values (`Date.now()/1000`, token
counts).  TTL metadata attached by `EXPIRE`/`SET ... EX` only governs decay
of idle keys; the passage-of-time decay itself is not modelled (claims that
need freshness carry it as an explicit hypothesis).
-/

namespace Upredis

/-- The result record every strategy returns
(`RateLimitResult` in `src/rate-limiter/index.ts`). -/
structure RateLimitResult where
  allowed : Bool
  remaining : ℤ
  limit : ℤ
  retryAfter : ℤ
deriving Repr, DecidableEq

/-- `prefixKey` from `src/utils/key.ts`: `` `${prefix}:${key}` ``. -/
def prefixKey (pfx key : String) : String := pfx ++ ":" ++ key

/-- Decimal digit characters of `n`, most significant first, prepended to
`acc`.  Structural recursion on a fuel argument keeps it kernel-evaluable. -/
def natCharsAux : ℕ → ℕ → List Char → List Char
  | 0, _, acc => acc
  | fuel+1, n, acc =>
    if n = 0 then acc else natCharsAux fuel (n / 10) (Nat.digitChar (n % 10) :: acc)

/-- JavaScript's decimal rendering of a nonnegative integer, as produced by
template interpolation (`` `${windowStart}` ``). -/
def natToString (n : ℕ) : String :=
  if n = 0 then "0" else String.mk (natCharsAux n n [])

/-! ## Fixed window strategy (`src/rate-limiter/strategies/fixed-window.ts`)

The store holds one integer counter per window key; `INCR` creates it at 0
then increments, atomically.  The `EXPIRE` call after the first increment
only sets TTL metadata (decay is not modelled), so the store model records
counters only. -/

/-- Store for the fixed-window strategy: Redis integer-string counters. -/
def FWStore : Type := String → Option ℕ

/-- `windowKey` from the fixed-window strategy: floor the current time (in
seconds) to a multiple of the window length and append it to the base key. -/
def windowKey (baseKey : String) (windowSec : ℕ) (nowMs : ℕ) : String :=
  let now := nowMs / 1000
  let windowStart := now / windowSec * windowSec
  baseKey ++ ":" ++ natToString windowStart

/-- `secondsUntilWindowEnd` from the fixed-window strategy.  Here `now` is
`Date.now() / 1000` *unfloored*, a rational, exactly as in the source. -/
def secondsUntilWindowEnd (windowSec : ℕ) (nowMs : ℕ) : ℤ :=
  let now : ℚ := (nowMs : ℚ) / 1000
  let windowStart : ℚ := (⌊now / (windowSec : ℚ)⌋ : ℚ) * (windowSec : ℚ)
  ⌈windowStart + (windowSec : ℚ) - now⌉

/-- Redis `INCR`: create at 0 if absent, then increment; returns the new
value.  Atomic in Redis, hence a single step here. -/
def fwIncr (st : FWStore) (k : String) : ℕ × FWStore :=
  let c := (st k).getD 0 + 1
  (c, fun k2 => if k2 = k then some c else st k2)

/-- `limit` of the fixed-window strategy: `INCR` the window's counter
(the `EXPIRE` on first increment touches only TTL metadata), then admit
iff the new count is at most the limit. -/
def fwLimit (L windowSec : ℕ) (nowMs : ℕ) (st : FWStore) (k : String) :
    RateLimitResult × FWStore :=
  let wKey := windowKey k windowSec nowMs
  let p := fwIncr st wKey
  let count := p.1
  ({ allowed := decide ((count : ℤ) ≤ (L : ℤ))
     remaining := max 0 ((L : ℤ) - (count : ℤ))
     limit := (L : ℤ)
     retryAfter :=
       if (count : ℤ) ≤ (L : ℤ) then 0 else secondsUntilWindowEnd windowSec nowMs },
   p.2)

/-- `peek` of the fixed-window strategy: a single `GET` of the counter
(0 if absent).  `GET` is read-only, so the returned store is the input
store. -/
def fwPeek (L windowSec : ℕ) (nowMs : ℕ) (st : FWStore) (k : String) :
    RateLimitResult × FWStore :=
  let wKey := windowKey k windowSec nowMs
  let count := (st wKey).getD 0
  ({ allowed := decide ((count : ℤ) < (L : ℤ))
     remaining := max 0 ((L : ℤ) - (count : ℤ))
     limit := (L : ℤ)
     retryAfter :=
       if (count : ℤ) < (L : ℤ) then 0 else secondsUntilWindowEnd windowSec nowMs },
   st)

/-- `reset` of the fixed-window strategy: `DEL` the current window's key. -/
def fwReset (windowSec : ℕ) (nowMs : ℕ) (st : FWStore) (k : String) : FWStore :=
  fun k2 => if k2 = windowKey k windowSec nowMs then none else st k2

/-- A sequence of `limit` calls at the given timestamps, returning the
results in order. -/
def fwCalls (L windowSec : ℕ) (k : String) : List ℕ → FWStore → List RateLimitResult
  | [], _ => []
  | t :: ts, st =>
    let p := fwLimit L windowSec t st k
    p.1 :: fwCalls L windowSec k ts p.2

/-! ## Sliding window strategy
(`src/rate-limiter/strategies/sliding-window.ts` + `scripts/sliding-window.lua`)

The store holds one sorted set per key: a list of (score = timestamp ms,
member) pairs, member-unique as in Redis.  An absent key is the empty
list.  The `EXPIRE` in the script's step 4 is TTL metadata, not modelled. -/

/-- Sliding-window store: Redis sorted sets of (score, member). -/
def SWStore : Type := String → List (ℕ × String)

/-- Redis `ZADD key score member`: update the member's score if present,
else insert. -/
def zadd (l : List (ℕ × String)) (score : ℕ) (member : String) :
    List (ℕ × String) :=
  if l.any (fun e => e.2 = member) then
    l.map (fun e => if e.2 = member then (score, member) else e)
  else l ++ [(score, member)]

/-- Redis `ZREMRANGEBYSCORE key -inf windowStart`: drop every entry with
score ≤ windowStart (the range is inclusive).  `windowStart` is signed:
in the source it is `nowMs - windowMs`, which can be negative. -/
def zprune (l : List (ℕ × String)) (windowStart : ℤ) : List (ℕ × String) :=
  l.filter (fun e => windowStart < (e.1 : ℤ))

/-- The `sliding-window.lua` script, run atomically: prune, count, add the
request iff under the limit; returns (allowed 0/1, post-count). -/
def swScript (st : SWStore) (key : String) (windowStart : ℤ)
    (nowMs limit : ℕ) (member : String) : (ℕ × ℕ) × SWStore :=
  let pruned := zprune (st key) windowStart
  let count := pruned.length
  if count < limit then
    ((1, count + 1), fun k2 => if k2 = key then zadd pruned nowMs member else st k2)
  else
    ((0, count), fun k2 => if k2 = key then pruned else st k2)

/-- `limit` of the sliding-window strategy.  `member` stands for the
`requestId` the source draws from `Math.random()`; it is an input here. -/
def swLimit (L windowSec : ℕ) (nowMs : ℕ) (member : String)
    (st : SWStore) (k : String) : RateLimitResult × SWStore :=
  let windowMs := windowSec * 1000
  let windowStart : ℤ := (nowMs : ℤ) - (windowMs : ℤ)
  let r := swScript st k windowStart nowMs L member
  ({ allowed := decide (r.1.1 = 1)
     remaining := max 0 ((L : ℤ) - (r.1.2 : ℤ))
     limit := (L : ℤ)
     retryAfter := if r.1.1 = 1 then 0 else (windowSec : ℤ) }, r.2)

/-- `peek` of the sliding-window strategy: a two-command pipeline,
`ZREMRANGEBYSCORE` then `ZCARD` — prune and count, no insert. -/
def swPeek (L windowSec : ℕ) (nowMs : ℕ) (st : SWStore) (k : String) :
    RateLimitResult × SWStore :=
  let windowStart : ℤ := (nowMs : ℤ) - ((windowSec * 1000 : ℕ) : ℤ)
  let pruned := zprune (st k) windowStart
  let count := pruned.length
  ({ allowed := decide (count < L)
     remaining := max 0 ((L : ℤ) - (count : ℤ))
     limit := (L : ℤ)
     retryAfter := if count < L then 0 else (windowSec : ℤ) },
   fun k2 => if k2 = k then pruned else st k2)

/-- `reset` of the sliding-window strategy: `DEL` the whole log. -/
def swReset (st : SWStore) (k : String) : SWStore :=
  fun k2 => if k2 = k then [] else st k2


/-- A `swLimit` call whose pruned log is under the limit: allowed, and the
log gains the new member. -/
theorem swLimit_allowed_case (L W now : ℕ) (member : String) (st : SWStore)
    (k : String)
    (h : (zprune (st k) ((now : ℤ) - ((W * 1000 : ℕ) : ℤ))).length < L) :
    (swLimit L W now member st k).1.allowed = true ∧
    (swLimit L W now member st k).2 k
      = zadd (zprune (st k) ((now : ℤ) - ((W * 1000 : ℕ) : ℤ))) now member := by
  simp only [swLimit, swScript]
  split_ifs
  exact ⟨rfl, by simp⟩

/-- A `swLimit` call whose pruned log is at or over the limit: denied,
`retryAfter` is the window length, the log is only pruned. -/
theorem swLimit_denied_case (L W now : ℕ) (member : String) (st : SWStore)
    (k : String)
    (h : ¬ (zprune (st k) ((now : ℤ) - ((W * 1000 : ℕ) : ℤ))).length < L) :
    (swLimit L W now member st k).1.allowed = false ∧
    (swLimit L W now member st k).1.retryAfter = (W : ℤ) := by
  simp only [swLimit, swScript]
  split_ifs with h2
  · exact h2.elim
  · exact ⟨rfl, rfl⟩

/-- **C9**: sliding window with limit 2, window 60 on a fresh key: two
`limit` calls inside the window are allowed, the third is denied with
`retryAfter = 60`; and (stated for arbitrary parameters) every rejected
sliding-window `limit` call returns `retryAfter` equal to the configured
window length. -/
theorem slidingWindow_boundary (t1 t2 t3 : ℕ) (m1 m2 m3 : String)
    (h12 : t1 ≤ t2) (h23 : t2 ≤ t3) (hwin : t3 < t1 + 60000) (hm : m1 ≠ m2)
    (st : SWStore) (k : String) (hfresh : st k = [])
    (L' W' now' : ℕ) (m' : String) (st' : SWStore) (k' : String) :
    ((swLimit 2 60 t1 m1 st k).1.allowed = true ∧
     (swLimit 2 60 t2 m2 (swLimit 2 60 t1 m1 st k).2 k).1.allowed = true ∧
     (swLimit 2 60 t3 m3 (swLimit 2 60 t2 m2 (swLimit 2 60 t1 m1 st k).2 k).2 k).1.allowed
        = false ∧
     (swLimit 2 60 t3 m3 (swLimit 2 60 t2 m2 (swLimit 2 60 t1 m1 st k).2 k).2 k).1.retryAfter
        = 60) ∧
    ((swLimit L' W' now' m' st' k').1.allowed = false →
      (swLimit L' W' now' m' st' k').1.retryAfter = (W' : ℤ)) := by
  constructor
  · have hz1 : zprune (st k) ((t1 : ℤ) - ((60 * 1000 : ℕ) : ℤ)) = [] := by
      rw [hfresh]; rfl
    have step1 := swLimit_allowed_case 2 60 t1 m1 st k (by rw [hz1]; norm_num)
    have hs1 : (swLimit 2 60 t1 m1 st k).2 k = [(t1, m1)] := by
      rw [step1.2, hz1]; rfl
    have hz2 : zprune ((swLimit 2 60 t1 m1 st k).2 k) ((t2 : ℤ) - ((60 * 1000 : ℕ) : ℤ))
        = [(t1, m1)] := by
      rw [hs1]
      simp only [zprune, List.filter_cons, List.filter_nil, decide_eq_true_eq]
      rw [if_pos (by push_cast; omega)]
    have step2 := swLimit_allowed_case 2 60 t2 m2 ((swLimit 2 60 t1 m1 st k).2) k
      (by rw [hz2]; norm_num)
    have hs2 : (swLimit 2 60 t2 m2 (swLimit 2 60 t1 m1 st k).2 k).2 k
        = [(t1, m1), (t2, m2)] := by
      rw [step2.2, hz2, zadd, if_neg]
      · rfl
      · simp [hm]
    have hz3 : zprune ((swLimit 2 60 t2 m2 (swLimit 2 60 t1 m1 st k).2 k).2 k)
        ((t3 : ℤ) - ((60 * 1000 : ℕ) : ℤ)) = [(t1, m1), (t2, m2)] := by
      rw [hs2]
      simp only [zprune, List.filter_cons, List.filter_nil, decide_eq_true_eq]
      rw [if_pos (by push_cast; omega), if_pos (by push_cast; omega)]
    have step3 := swLimit_denied_case 2 60 t3 m3
      ((swLimit 2 60 t2 m2 (swLimit 2 60 t1 m1 st k).2 k).2) k (by rw [hz3]; norm_num)
    exact ⟨step1.1, step2.1, step3.1, step3.2⟩
  · intro h
    by_cases hc :
        (zprune (st' k') ((now' : ℤ) - ((W' * 1000 : ℕ) : ℤ))).length < L'
    · exact absurd (swLimit_allowed_case L' W' now' m' st' k' hc).1 (by simp [h])
    · exact (swLimit_denied_case L' W' now' m' st' k' hc).2


/-! ## Token bucket strategy
(`src/rate-limiter/strategies/token-bucket.ts` + `scripts/token-bucket.lua`)

The store holds one Redis hash per key with fields `tokens` (a Lua float,
modelled exactly as ℚ) and `last_refill` (a millisecond timestamp).  The
script's `HSET`/`tostring`/`tonumber` round-trip is modelled as exact. -/

/-- Token-bucket store: `tokens` and `last_refill` per key. -/
def TBStore : Type := String → Option (ℚ × ℕ)

/-- The `token-bucket.lua` script, run atomically.  `consume = true` for
`limit`, `false` for `peek`.  Absent key initialises a full bucket.  The
refill is `elapsed/1000 × refillRate`, capped at capacity; a consuming call
takes one token if `tokens ≥ 1`.  Returns (allowed 0/1, `math.floor` of the
written-back tokens); writes `{tokens, last_refill := now}` back and
refreshes the TTL (metadata, not modelled). -/
def tbScript (capacity refillRate : ℚ) (nowMs : ℕ) (consume : Bool)
    (st : TBStore) (key : String) : (ℕ × ℤ) × TBStore :=
  let s0 := (st key).getD (capacity, nowMs)
  let elapsedMs : ℚ := (nowMs : ℚ) - (s0.2 : ℚ)
  let refill := elapsedMs / 1000 * refillRate
  let tokens1 := min capacity (s0.1 + refill)
  let p : ℕ × ℚ :=
    if consume then
      (if 1 ≤ tokens1 then (1, tokens1 - 1) else (0, tokens1))
    else
      (if 1 ≤ tokens1 then (1, tokens1) else (0, tokens1))
  ((p.1, ⌊p.2⌋), fun k2 => if k2 = key then some (p.2, nowMs) else st k2)

/-- `run` from `createTokenBucket`: call the script, then fill the result
record; `retryAfter` on rejection is `Math.ceil(1 / refillRate)`. -/
def tbRun (capacity : ℕ) (refillRate : ℚ) (nowMs : ℕ) (consume : Bool)
    (st : TBStore) (k : String) : RateLimitResult × TBStore :=
  let r := tbScript (capacity : ℚ) refillRate nowMs consume st k
  ({ allowed := decide (r.1.1 = 1)
     remaining := r.1.2
     limit := (capacity : ℤ)
     retryAfter := if r.1.1 = 1 then 0 else ⌈1 / refillRate⌉ }, r.2)

/-- `limit` of the token-bucket strategy. -/
def tbLimit (capacity : ℕ) (refillRate : ℚ) (nowMs : ℕ)
    (st : TBStore) (k : String) : RateLimitResult × TBStore :=
  tbRun capacity refillRate nowMs true st k

/-- `peek` of the token-bucket strategy. -/
def tbPeek (capacity : ℕ) (refillRate : ℚ) (nowMs : ℕ)
    (st : TBStore) (k : String) : RateLimitResult × TBStore :=
  tbRun capacity refillRate nowMs false st k

/-- `reset` of the token-bucket strategy: `DEL` the bucket record. -/
def tbReset (st : TBStore) (k : String) : TBStore :=
  fun k2 => if k2 = k then none else st k2

/-- Run a sequence of token-bucket operations (`(observed now, consume?)`)
against the store. -/
def tbExec (capacity : ℕ) (refillRate : ℚ) (k : String) :
    List (ℕ × Bool) → TBStore → TBStore
  | [], st => st
  | e :: ops, st => tbExec capacity refillRate k ops (tbRun capacity refillRate e.1 e.2 st k).2


/-- A sequence of sliding-window `peek` calls at the given timestamps. -/
def swPeeks (L windowSec : ℕ) (k : String) : List ℕ → SWStore → SWStore
  | [], st => st
  | t :: ts, st => swPeeks L windowSec k ts (swPeek L windowSec t st k).2

/-- A sequence of token-bucket `peek` calls at the given timestamps. -/
def tbPeeks (capacity : ℕ) (refillRate : ℚ) (k : String) :
    List ℕ → TBStore → TBStore
  | [], st => st
  | t :: ts, st => tbPeeks capacity refillRate k ts (tbPeek capacity refillRate t st k).2

/-- The bucket at `k` is in range and its `last_refill` does not exceed the
next operation's observed time. -/
def TBGood (capacity : ℕ) (k : String) (st : TBStore) (ops : List (ℕ × Bool)) : Prop :=
  ∀ q t, st k = some (q, t) →
    (0 ≤ q ∧ q ≤ (capacity : ℚ)) ∧ ∀ e ∈ ops.head?, t ≤ e.1


/-! ## Stampede-guarded cache (`src/cache/index.ts`)

The cache store maps Redis keys to serialized string values (TTL metadata
not modelled).  The `Cache` class is generic in the cached value type and
its serializer pair; `deserialize` returns `none` where JavaScript's `get`
would return `null` — both a store miss and a value that deserializes to
`null` make `get` return `null`, which is exactly the miss test used by
`getOrSet`/`getOrSetSafe` (`cached !== null`). -/

/-- Cache-component store: serialized values per Redis key. -/
def CStore : Type := String → Option String

/-- Point update of a cache store (`SET` / `DEL`). -/
def upd (st : CStore) (key : String) (v : Option String) : CStore :=
  fun k2 => if k2 = key then v else st k2

/-- `Cache.key`: prefix a user key with the configured namespace. -/
def cacheKey (pfx k : String) : String := prefixKey pfx k

/-- `getOrSetSafe`'s lock key: `` `${this.key(key)}:lock` ``. -/
def lockKey (pfx k : String) : String := cacheKey pfx k ++ ":lock"

/-- `Cache.get`: `GET` then deserialize; `none` is JavaScript `null`
(miss, or a stored value that deserializes to `null`). -/
def cacheGet {V : Type} (pfx : String) (deser : String → Option V)
    (st : CStore) (k : String) : Option V :=
  (st (cacheKey pfx k)).bind deser

/-- `Cache.set`: serialize and `SET` (the TTL argument only attaches
expiry metadata, which is not modelled). -/
def cacheSet {V : Type} (pfx : String) (ser : V → String)
    (st : CStore) (k : String) (v : V) : CStore :=
  upd st (cacheKey pfx k) (some (ser v))

/-- `Cache.delete`: `DEL`; returns whether the key existed. -/
def cacheDelete (pfx : String) (st : CStore) (k : String) : Bool × CStore :=
  ((st (cacheKey pfx k)).isSome, upd st (cacheKey pfx k) none)

/-- `Cache.has`: `EXISTS`. -/
def cacheHas (pfx : String) (st : CStore) (k : String) : Bool :=
  (st (cacheKey pfx k)).isSome

/-- `Cache.getOrSet`: cache-aside without stampede protection.  The loader
is an already-determined outcome (`Except`): `error` models a loader that
throws. -/
def getOrSet {V E : Type} (pfx : String) (ser : V → String)
    (deser : String → Option V) (st : CStore) (k : String)
    (loader : Except E V) : Except E (Option V) × CStore :=
  match cacheGet pfx deser st k with
  | some v => (Except.ok (some v), st)
  | none =>
    match loader with
    | Except.ok v => (Except.ok (some v), cacheSet pfx ser st k v)
    | Except.error e => (Except.error e, st)

/-- `Cache.getOrSetSafe`, sequential semantics (this caller's own store
round trips, no interleaved writers — the store only changes through this
call's own commands).  Fast path on a hit; otherwise `SET NX` on the lock
key decides the role: the lock holder runs the loader, caches on success,
and `finally`-releases the lock; a caller that fails to acquire polls the
(unchanging) cache until `waitTimeout`, then falls back to loading and
caching itself. -/
def getOrSetSafeSeq {V E : Type} (pfx : String) (ser : V → String)
    (deser : String → Option V) (st : CStore) (k : String)
    (loader : Except E V) : Except E (Option V) × CStore :=
  match cacheGet pfx deser st k with
  | some v => (Except.ok (some v), st)
  | none =>
    match st (lockKey pfx k) with
    | none =>
      -- SET lockKey "1" NX succeeded: sole loader
      let st1 := upd st (lockKey pfx k) (some "1")
      match loader with
      | Except.ok v =>
        -- set the value, then finally: DEL the lock
        (Except.ok (some v), upd (cacheSet pfx ser st1 k v) (lockKey pfx k) none)
      | Except.error e =>
        -- finally: DEL the lock, then the error propagates
        (Except.error e, upd st1 (lockKey pfx k) none)
    | some _ =>
      -- lock held: poll the cache; it never changes in this sequential
      -- semantics, so the wait times out and the caller falls back
      match loader with
      | Except.ok v => (Except.ok (some v), cacheSet pfx ser st k v)
      | Except.error e => (Except.error e, st)


/-- `Cache.setMany`: a pipeline of `SET`s, applied in order. -/
def setMany {V : Type} (pfx : String) (ser : V → String)
    (st : CStore) (entries : List (String × V)) : CStore :=
  entries.foldl (fun s e => cacheSet pfx ser s e.1 e.2) st

/-- `Cache.deleteMany`: one `DEL` of all the prefixed keys. -/
def deleteMany (pfx : String) (st : CStore) (keys : List String) : CStore :=
  keys.foldl (fun s k2 => upd s (cacheKey pfx k2) none) st

/-! ## RateLimiter construction (`src/rate-limiter/index.ts`)

The constructor `switch`es on `config.strategy` with one `case` per known
discriminant and **no `default` branch and no `throw`**: an unrecognised
discriminant assigns nothing, the constructor returns normally, and
`this.strategy` is left `undefined`; the first `limit`/`peek`/`reset` call
then throws a `TypeError` dereferencing `undefined`. -/

/-- The three strategies the constructor can select. -/
inductive StrategyTag where
  | fixedWindow
  | slidingWindow
  | tokenBucket
deriving Repr, DecidableEq

/-- What `new RateLimiter(config)` leaves in `this.strategy`: the
constructor completes without raising for every discriminant; an unknown
discriminant leaves the field `undefined` (`none`). -/
def rlConstruct (strategy : String) : Option StrategyTag :=
  if strategy = "fixed-window" then some .fixedWindow
  else if strategy = "sliding-window" then some .slidingWindow
  else if strategy = "token-bucket" then some .tokenBucket
  else none

/-- `limit`/`peek`/`reset` dereference `this.strategy`; with the field
`undefined` the call raises a `TypeError` at call time. -/
def rlCallRaises (s : Option StrategyTag) : Bool := s.isNone



/-! ## `getOrSetSafe` under concurrency: the stampede scenario

`N ≥ 1` callers hit the same cold key simultaneously (time 0): every fast
path misses, all `N` `SET NX` attempts race and — by the store's atomicity
— exactly one succeeds.  The winner runs the loader (duration `D` ms) and
writes the value, visible from time `D`; its lock release is irrelevant to
the others (a failed acquirer never retries the lock — it only polls the
cache).  The cache history for the key is therefore a function of time:
absent before `D`, the loaded value from `D` on.  All `N − 1` losers run
the same deterministic polling loop against that history, so they behave
identically and are modelled once.

The polling loop is translated from the source:
`while (Date.now() < deadline) { await sleep(retryInterval); v = get(); if (v !== null) return v; }`
followed by the fallback load.  `fuel` bounds the iteration count for
structural recursion; `retryInterval ≥ 1` makes `waitTimeout + 1` enough
fuel. -/

/-- The waiters' polling loop over the time-indexed cache contents.
`some v` = the value appeared during the wait; `none` = the wait timed out
(the caller then falls back to loading itself). -/
def pollLoop {V : Type} (cacheAt : ℕ → Option V) (retryInterval deadline : ℕ) :
    ℕ → ℕ → Option V
  | 0, _ => none
  | fuel + 1, now =>
    if now < deadline then
      match cacheAt (now + retryInterval) with
      | some v => some v
      | none => pollLoop cacheAt retryInterval deadline fuel (now + retryInterval)
    else none

/-- A waiter's whole wait phase: poll every `retryInterval` ms until the
deadline `now0 + waitTimeout`. -/
def waiterWait {V : Type} (cacheAt : ℕ → Option V)
    (retryInterval waitTimeout now0 : ℕ) : Option V :=
  pollLoop cacheAt retryInterval (now0 + waitTimeout) (waitTimeout + 1) now0

/-- The whole stampede scenario: loader duration `D`, poll interval `R`,
wait timeout `W`, loader value `v`.  Returns (number of loader
invocations, the value each of the `N` callers returns — winner first). -/
def stampedeRun {V : Type} (N D R W : ℕ) (v : V) : ℕ × List V :=
  let cacheAt : ℕ → Option V := fun t => if D ≤ t then some v else none
  match waiterWait cacheAt R W 0 with
  | some w => (1, v :: List.replicate (N - 1) w)
  | none => (1 + (N - 1), v :: List.replicate (N - 1) v)


/-! ## The default serializer: `JSON.stringify` / `JSON.parse`

`Cache` defaults to `serialize = JSON.stringify`, `deserialize =
JSON.parse`.  The JSON-representable value domain is modelled by `JVal`;
number values are modelled as integers (`ℤ`) — IEEE-754 float formatting
is out of scope of this embedding.  `jsonStringify` follows
`JSON.stringify`'s output format exactly on this domain (escape set:
quote, backslash, and control characters below 0x20, with the short forms
`\b \t \n \f \r` and `\u00XX` otherwise); `jsonParse` models
`JSON.parse` on it, returning `none` where `JSON.parse` would throw. -/

/-- JSON-representable values (numbers restricted to integers). -/
inductive JVal where
  | jnull
  | jbool (b : Bool)
  | jnum (n : ℤ)
  | jstr (s : String)
  | jarr (xs : List JVal)
  | jobj (fs : List (String × JVal))

/-- `String(n)` for a natural number, as a character list. -/
def natChars (n : ℕ) : List Char := (natToString n).data

/-- JavaScript's decimal rendering of an integer. -/
def intChars : ℤ → List Char
  | Int.ofNat n => natChars n
  | Int.negSucc m => '-' :: natChars (m + 1)

/-- `JSON.stringify`'s escape for one character inside a string literal. -/
def jsEscapeChar (c : Char) : List Char :=
  if c = '"' then ['\\', '"']
  else if c = '\\' then ['\\', '\\']
  else if c = '\n' then ['\\', 'n']
  else if c = '\r' then ['\\', 'r']
  else if c = '\t' then ['\\', 't']
  else if c = Char.ofNat 8 then ['\\', 'b']
  else if c = Char.ofNat 12 then ['\\', 'f']
  else if c.toNat < 32 then
    ['\\', 'u', '0', '0', Nat.digitChar (c.toNat / 16), Nat.digitChar (c.toNat % 16)]
  else [c]

/-- Escape a whole string body. -/
def jsEscape : List Char → List Char
  | [] => []
  | c :: cs => jsEscapeChar c ++ jsEscape cs

mutual

/-- `JSON.stringify` on the modelled domain, as a character list. -/
def jsonStringify : JVal → List Char
  | .jnull => ['n', 'u', 'l', 'l']
  | .jbool true => ['t', 'r', 'u', 'e']
  | .jbool false => ['f', 'a', 'l', 's', 'e']
  | .jnum i => intChars i
  | .jstr s => '"' :: (jsEscape s.data ++ ['"'])
  | .jarr [] => ['[', ']']
  | .jarr (x :: xs) => '[' :: (printArrItems (x :: xs) ++ [']'])
  | .jobj [] => [Char.ofNat 123, Char.ofNat 125]
  | .jobj (f :: fs) => Char.ofNat 123 :: (printObjItems (f :: fs) ++ [Char.ofNat 125])

/-- Comma-separated array elements. -/
def printArrItems : List JVal → List Char
  | [] => []
  | [x] => jsonStringify x
  | x :: y :: xs => jsonStringify x ++ ',' :: printArrItems (y :: xs)

/-- Comma-separated object members (`"key":value`). -/
def printObjItems : List (String × JVal) → List Char
  | [] => []
  | [f] => '"' :: (jsEscape f.1.data ++ '"' :: ':' :: jsonStringify f.2)
  | f :: g :: fs =>
    ('"' :: (jsEscape f.1.data ++ '"' :: ':' :: jsonStringify f.2)) ++
      ',' :: printObjItems (g :: fs)

end


/-- Hex digit value (JSON `\uXXXX` escapes, both cases). -/
def parseHexDigit (c : Char) : Option ℕ :=
  if '0' ≤ c ∧ c ≤ '9' then some (c.toNat - 48)
  else if 'a' ≤ c ∧ c ≤ 'f' then some (c.toNat - 87)
  else if 'A' ≤ c ∧ c ≤ 'F' then some (c.toNat - 55)
  else none

/-- Short escape forms accepted after a backslash. -/
def unescapeChar (c : Char) : Option Char :=
  if c = '"' then some '"'
  else if c = '\\' then some '\\'
  else if c = '/' then some '/'
  else if c = 'n' then some '\n'
  else if c = 'r' then some '\r'
  else if c = 't' then some '\t'
  else if c = 'b' then some (Char.ofNat 8)
  else if c = 'f' then some (Char.ofNat 12)
  else none

/-- Parse a string literal body up to (and past) the closing quote. -/
def parseStringBody : ℕ → List Char → Option (List Char × List Char)
  | 0, _ => none
  | _ + 1, [] => none
  | fuel + 1, c :: cs =>
    if c = '"' then some ([], cs)
    else if c = '\\' then
      match cs with
      | [] => none
      | e :: cs2 =>
        if e = 'u' then
          match cs2 with
          | h1 :: h2 :: h3 :: h4 :: cs3 =>
            match parseHexDigit h1, parseHexDigit h2, parseHexDigit h3,
                parseHexDigit h4 with
            | some d1, some d2, some d3, some d4 =>
              (parseStringBody fuel cs3).map (fun r =>
                (Char.ofNat (((d1 * 16 + d2) * 16 + d3) * 16 + d4) :: r.1, r.2))
            | _, _, _, _ => none
          | _ => none
        else
          match unescapeChar e with
          | some u => (parseStringBody fuel cs2).map (fun r => (u :: r.1, r.2))
          | none => none
    else (parseStringBody fuel cs).map (fun r => (c :: r.1, r.2))

/-- Decimal value of a digit run. -/
def digsToNat (l : List Char) : ℕ :=
  l.foldl (fun a c => 10 * a + (c.toNat - 48)) 0

/-- Parse a nonempty digit run. -/
def parseNatNum (cs : List Char) : Option (ℕ × List Char) :=
  let digs := cs.takeWhile (fun c => c.isDigit)
  if digs.isEmpty then none
  else some (digsToNat digs, cs.dropWhile (fun c => c.isDigit))

mutual

/-- `JSON.parse` on the modelled domain (recursive descent; `fuel` bounds
the number of nested values for structural recursion). -/
def parseVal : ℕ → List Char → Option (JVal × List Char)
  | 0, _ => none
  | _ + 1, [] => none
  | fuel + 1, c :: cs =>
    if c = 'n' then
      match cs with
      | 'u' :: 'l' :: 'l' :: rest => some (.jnull, rest)
      | _ => none
    else if c = 't' then
      match cs with
      | 'r' :: 'u' :: 'e' :: rest => some (.jbool true, rest)
      | _ => none
    else if c = 'f' then
      match cs with
      | 'a' :: 'l' :: 's' :: 'e' :: rest => some (.jbool false, rest)
      | _ => none
    else if c = '"' then
      (parseStringBody (cs.length + 1) cs).map (fun r => (.jstr (String.mk r.1), r.2))
    else if c = '-' then
      (parseNatNum cs).map (fun r => (.jnum (-(r.1 : ℤ)), r.2))
    else if c = '[' then
      match cs with
      | [] => none
      | c2 :: rest2 =>
        if c2 = ']' then some (.jarr [], rest2)
        else (parseArrItems fuel (c2 :: rest2)).map (fun r => (.jarr r.1, r.2))
    else if c = Char.ofNat 123 then
      match cs with
      | [] => none
      | c2 :: rest2 =>
        if c2 = Char.ofNat 125 then some (.jobj [], rest2)
        else (parseObjItems fuel (c2 :: rest2)).map (fun r => (.jobj r.1, r.2))
    else if c.isDigit then
      (parseNatNum (c :: cs)).map (fun r => (.jnum (r.1 : ℤ), r.2))
    else none

/-- Array elements after `[`, ending at `]`. -/
def parseArrItems : ℕ → List Char → Option (List JVal × List Char)
  | 0, _ => none
  | fuel + 1, cs =>
    match parseVal fuel cs with
    | none => none
    | some (v, rest) =>
      match rest with
      | [] => none
      | c2 :: rest2 =>
        if c2 = ',' then (parseArrItems fuel rest2).map (fun r => (v :: r.1, r.2))
        else if c2 = ']' then some ([v], rest2)
        else none

/-- Object members after the opening brace, ending at the closing brace. -/
def parseObjItems : ℕ → List Char → Option (List (String × JVal) × List Char)
  | 0, _ => none
  | _ + 1, [] => none
  | fuel + 1, c :: cs =>
    if c = '"' then
      match parseStringBody (cs.length + 1) cs with
      | none => none
      | some (key, rest) =>
        match rest with
        | [] => none
        | c2 :: rest2 =>
          if c2 = ':' then
            match parseVal fuel rest2 with
            | none => none
            | some (v, rest3) =>
              match rest3 with
              | [] => none
              | c3 :: rest4 =>
                if c3 = ',' then
                  (parseObjItems fuel rest4).map (fun r =>
                    ((String.mk key, v) :: r.1, r.2))
                else if c3 = Char.ofNat 125 then
                  some ([(String.mk key, v)], rest4)
                else none
          else none
    else none

end

/-- The default `serialize`: `JSON.stringify`. -/
def jsonSer (v : JVal) : String := String.mk (jsonStringify v)

/-- `JSON.parse` of a whole string; `none` models a thrown `SyntaxError`. -/
def jsonParse (raw : String) : Option JVal :=
  match parseVal (raw.data.length + 1) raw.data with
  | some (v, []) => some v
  | _ => none

/-- The default `deserialize` as seen by `Cache.get`'s miss test: a stored
value that parses to JSON `null` is returned as JavaScript `null`, which is
indistinguishable from a miss (`none` here).  Raw strings produced by
`jsonSer` always parse, so the throwing case of `JSON.parse` stays
unreachable under this serializer. -/
def jsonDeser (raw : String) : Option JVal :=
  match jsonParse raw with
  | some JVal.jnull => none
  | x => x

/-! ## The `getOrSetSafe` lock-lease protocol as a transition system

`key:lock` for one key, shared by `n` concurrent callers.  The store holds
at most one lease record at a time: `SET lockKey "1" NX EX lockTTL`
succeeds exactly when no unexpired record exists.  The record itself
stores no holder identity; the holder component here is specification
ghost state recording whose `SET NX` created the current record.  A caller
that acquired runs the guarded section (`holder`) and its `finally` issues
an unconditional `DEL` of the lock key; a caller whose `SET NX` failed
becomes a `waiter` (it polls the cache and never touches the lock again). -/

/-- Phase of one `getOrSetSafe` caller with respect to the lock. -/
inductive LockPhase where
  | idle
  | holder
  | waiter
  | done
deriving Repr, DecidableEq

/-- Protocol state: current time (ms), the lease record (ghost holder id,
absolute expiry time), and each caller's phase. -/
structure LockState (n : ℕ) where
  time : ℕ
  lock : Option (Fin n × ℕ)
  phase : Fin n → LockPhase

/-- Events: time advancing, a caller's `SET NX` attempt (with its lease
TTL in ms), and a holder's `finally` `DEL`. -/
inductive LockAction (n : ℕ) where
  | tick (t : ℕ)
  | tryAcquire (i : Fin n) (ttl : ℕ)
  | release (i : Fin n)

/-- One protocol step.  `tryAcquire` succeeds iff there is no unexpired
lease record (Redis TTL semantics); `release` is the holder's
unconditional `DEL`. -/
def lockStep {n : ℕ} (s : LockState n) : LockAction n → LockState n
  | .tick t => if s.time ≤ t then { s with time := t } else s
  | .tryAcquire i ttl =>
    if s.phase i = .idle then
      match s.lock with
      | none =>
        { s with lock := some (i, s.time + ttl)
                 phase := fun j => if j = i then .holder else s.phase j }
      | some (_, exp) =>
        if exp ≤ s.time then
          { s with lock := some (i, s.time + ttl)
                   phase := fun j => if j = i then .holder else s.phase j }
        else
          { s with phase := fun j => if j = i then .waiter else s.phase j }
    else s
  | .release i =>
    if s.phase i = .holder then
      { s with lock := none
               phase := fun j => if j = i then .done else s.phase j }
    else s

/-- Run a list of protocol events. -/
def lockRun {n : ℕ} (s : LockState n) (acts : List (LockAction n)) : LockState n :=
  acts.foldl lockStep s

/-- Initial state: time 0, no lease, all callers idle. -/
def lockInit (n : ℕ) : LockState n :=
  { time := 0, lock := none, phase := fun _ => .idle }

/-- Every caller in the guarded section is the one whose `SET NX` created
the current lease record. -/
def LockInv {n : ℕ} (s : LockState n) : Prop :=
  ∀ i, s.phase i = .holder → ∃ exp, s.lock = some (i, exp)

end Upredis

namespace Upredis

/-! ## Theorems -/

theorem natCharsAux_eq : ∀ (fuel n : ℕ) (acc : List Char), n ≤ fuel →
    natCharsAux fuel n acc = ((Nat.digits 10 n).map Nat.digitChar).reverse ++ acc := by
  intro fuel
  induction fuel with
  | zero =>
    intro n acc h
    interval_cases n
    simp [natCharsAux]
  | succ f ih =>
    intro n acc h
    by_cases hn : n = 0
    · subst hn; simp [natCharsAux]
    · have hpos : 0 < n := Nat.pos_of_ne_zero hn
      have hdiv : n / 10 ≤ f := by
        have : n / 10 < n := Nat.div_lt_self hpos (by norm_num)
        omega
      rw [natCharsAux, if_neg hn, ih (n / 10) _ hdiv,
        Nat.digits_def' (by norm_num : (1:ℕ) < 10) hpos]
      simp

theorem secondsUntilWindowEnd_pos (windowSec nowMs : ℕ) (hW : 0 < windowSec) :
    0 < secondsUntilWindowEnd windowSec nowMs := by
  unfold secondsUntilWindowEnd
  have hWq : (0 : ℚ) < (windowSec : ℚ) := by exact_mod_cast hW
  set now : ℚ := (nowMs : ℚ) / 1000 with hnow
  have h1 : now / (windowSec : ℚ) < (⌊now / (windowSec : ℚ)⌋ : ℚ) + 1 :=
    Int.lt_floor_add_one _
  have h2 : now < ((⌊now / (windowSec : ℚ)⌋ : ℚ) + 1) * (windowSec : ℚ) := by
    have := (div_lt_iff hWq).mp h1
    linarith [this]
  have h3 : (0 : ℚ) < (⌊now / (windowSec : ℚ)⌋ : ℚ) * (windowSec : ℚ) + (windowSec : ℚ) - now := by
    ring_nf
    ring_nf at h2
    linarith
  calc (0 : ℤ) < ⌈(⌊now / (windowSec : ℚ)⌋ : ℚ) * (windowSec : ℚ) + (windowSec : ℚ) - now⌉ := by
        exact_mod_cast Int.ceil_pos.mpr h3
    _ = _ := rfl

theorem secondsUntilWindowEnd_le (windowSec nowMs : ℕ) (hW : 0 < windowSec) :
    secondsUntilWindowEnd windowSec nowMs ≤ (windowSec : ℤ) := by
  unfold secondsUntilWindowEnd
  have hWq : (0 : ℚ) < (windowSec : ℚ) := by exact_mod_cast hW
  set now : ℚ := (nowMs : ℚ) / 1000 with hnow
  have hnow0 : 0 ≤ now := by positivity
  have h1 : (⌊now / (windowSec : ℚ)⌋ : ℚ) ≤ now / (windowSec : ℚ) := Int.floor_le _
  have h2 : (⌊now / (windowSec : ℚ)⌋ : ℚ) * (windowSec : ℚ) ≤ now := by
    calc (⌊now / (windowSec : ℚ)⌋ : ℚ) * (windowSec : ℚ)
        ≤ (now / (windowSec : ℚ)) * (windowSec : ℚ) := by
          exact mul_le_mul_of_nonneg_right h1 (le_of_lt hWq)
      _ = now := div_mul_cancel₀ now (ne_of_gt hWq)
  apply Int.ceil_le.mpr
  push_cast
  linarith

theorem fwCalls_length (L W : ℕ) (k : String) :
    ∀ (ts : List ℕ) (st : FWStore), (fwCalls L W k ts st).length = ts.length := by
  intro ts
  induction ts with
  | nil => intro st; rfl
  | cons t rest ih => intro st; simp [fwCalls, ih]

/-- Running `limit` repeatedly against the same window key: the `i`-th call
observes counter value `c + i + 1`, where `c` was the counter beforehand. -/
theorem fwCalls_spec (L W : ℕ) (k wk : String) :
    ∀ (ts : List ℕ) (st : FWStore) (c : ℕ),
      (∀ t ∈ ts, windowKey k W t = wk) → (st wk).getD 0 = c →
      ∀ (i : ℕ) (t : ℕ), ts[i]? = some t →
        (fwCalls L W k ts st)[i]? = some
          ({ allowed := decide (((c : ℤ) + i + 1) ≤ (L : ℤ))
             remaining := max 0 ((L : ℤ) - ((c : ℤ) + i + 1))
             limit := (L : ℤ)
             retryAfter := if ((c : ℤ) + i + 1) ≤ (L : ℤ) then 0
               else secondsUntilWindowEnd W t } : RateLimitResult) := by
  intro ts
  induction ts with
  | nil => intro st c _ _ i t ht; simp at ht
  | cons t0 rest ih =>
    intro st c hwk hc i t ht
    have hk0 : windowKey k W t0 = wk := hwk t0 (by simp)
    cases i with
    | zero =>
      rw [List.getElem?_cons_zero] at ht
      injection ht with ht
      subst ht
      simp only [fwCalls, List.getElem?_cons_zero, Option.some.injEq]
      simp only [fwLimit, fwIncr, hk0, hc]
      norm_num
    | succ i =>
      rw [List.getElem?_cons_succ] at ht
      have hst' : ((fwLimit L W t0 st k).2 wk).getD 0 = c + 1 := by
        simp [fwLimit, fwIncr, hk0, hc]
      have hrec := ih (fwLimit L W t0 st k).2 (c + 1)
        (fun t' ht' => hwk t' (List.mem_cons_of_mem _ ht')) hst' i t ht
      simp only [fwCalls, List.getElem?_cons_succ]
      rw [hrec]
      congr 1
      have harith : ((c : ℤ) + 1) + i + 1 = (c : ℤ) + (i + 1) + 1 := by ring
      push_cast
      rw [harith]

/-- **C2**: fixed window with limit `L`, window `W`: starting from a fresh
window, `L` consecutive `limit` calls inside one window are all allowed with
`remaining` decreasing `L−1, …, 0`, and the `(L+1)`-th call in the same
window is rejected with `remaining = 0` and `0 < retryAfter ≤ W`. -/
theorem fixedWindow_monotonicity (L W : ℕ) (hW : 0 < W) (k wk : String)
    (ts : List ℕ) (hlen : ts.length = L + 1)
    (hwk : ∀ t ∈ ts, windowKey k W t = wk)
    (st : FWStore) (hfresh : st wk = none) :
    (fwCalls L W k ts st).length = L + 1 ∧
    (∀ i : ℕ, i < L → ∃ r, (fwCalls L W k ts st)[i]? = some r ∧
      r.allowed = true ∧ r.remaining = (L : ℤ) - 1 - i) ∧
    (∃ r, (fwCalls L W k ts st)[L]? = some r ∧
      r.allowed = false ∧ r.remaining = 0 ∧
      0 < r.retryAfter ∧ r.retryAfter ≤ (W : ℤ)) := by
  have hc : (st wk).getD 0 = 0 := by simp [hfresh]
  have hspec := fwCalls_spec L W k wk ts st 0 hwk hc
  refine ⟨by rw [fwCalls_length, hlen], ?_, ?_⟩
  · intro i hi
    have hits : i < ts.length := by omega
    have ht' : ts[i]? = some ts[i] := List.getElem?_eq_getElem hits
    refine ⟨_, hspec i ts[i] ht', ?_, ?_⟩
    · simp only [decide_eq_true_eq]
      push_cast
      omega
    · simp only
      push_cast
      omega
  · have hits : L < ts.length := by omega
    have ht' : ts[L]? = some ts[L] := List.getElem?_eq_getElem hits
    refine ⟨_, hspec L ts[L] ht', ?_, ?_, ?_, ?_⟩
    · simp only [decide_eq_false_iff_not]
      push_cast
      omega
    · simp only
      push_cast
      omega
    · rw [if_neg (by push_cast; omega)]
      exact secondsUntilWindowEnd_pos W ts[L] hW
    · rw [if_neg (by push_cast; omega)]
      exact secondsUntilWindowEnd_le W ts[L] hW

/-- Concrete instantiation of `fixedWindow_monotonicity`:
`L = 2`, `W = 60`, calls at 0 ms, 5000 ms, 10000 ms. -/
theorem fixedWindow_monotonicity_witness :
    (0 < 60 ∧ ([0, 5000, 10000] : List ℕ).length = 2 + 1 ∧
      (∀ t ∈ ([0, 5000, 10000] : List ℕ),
        windowKey "user:1" 60 t = windowKey "user:1" 60 0) ∧
      ((fun _ => none : FWStore) (windowKey "user:1" 60 0)) = none) ∧
    ((fwCalls 2 60 "user:1" [0, 5000, 10000] (fun _ => none)).length = 2 + 1 ∧
    (∀ i : ℕ, i < 2 → ∃ r, (fwCalls 2 60 "user:1" [0, 5000, 10000] (fun _ => none))[i]? = some r ∧
      r.allowed = true ∧ r.remaining = (2 : ℤ) - 1 - i) ∧
    (∃ r, (fwCalls 2 60 "user:1" [0, 5000, 10000] (fun _ => none))[2]? = some r ∧
      r.allowed = false ∧ r.remaining = 0 ∧
      0 < r.retryAfter ∧ r.retryAfter ≤ (60 : ℤ))) :=
  ⟨⟨by decide, rfl, by decide, rfl⟩,
    fixedWindow_monotonicity 2 60 (by decide) "user:1" (windowKey "user:1" 60 0)
      [0, 5000, 10000] rfl (by decide) (fun _ => none) rfl⟩

/-- Concrete instantiation of `slidingWindow_boundary`: calls at 0, 1, 2 ms
and a denied call on an already-full log. -/
theorem slidingWindow_boundary_witness :
    ((0 : ℕ) ≤ 1 ∧ (1 : ℕ) ≤ 2 ∧ (2 : ℕ) < 0 + 60000 ∧ "a" ≠ "b" ∧
      (fun _ => [] : SWStore) "u" = []) ∧
    (((swLimit 2 60 0 "a" (fun _ => []) "u").1.allowed = true ∧
      (swLimit 2 60 1 "b" (swLimit 2 60 0 "a" (fun _ => []) "u").2 "u").1.allowed = true ∧
      (swLimit 2 60 2 "c" (swLimit 2 60 1 "b"
        (swLimit 2 60 0 "a" (fun _ => []) "u").2 "u").2 "u").1.allowed = false ∧
      (swLimit 2 60 2 "c" (swLimit 2 60 1 "b"
        (swLimit 2 60 0 "a" (fun _ => []) "u").2 "u").2 "u").1.retryAfter = 60) ∧
     ((swLimit 1 60 0 "x" (fun _ => [(0, "e")]) "v").1.allowed = false →
       (swLimit 1 60 0 "x" (fun _ => [(0, "e")]) "v").1.retryAfter = ((60 : ℕ) : ℤ))) :=
  ⟨⟨by decide, by decide, by decide, by decide, rfl⟩,
    slidingWindow_boundary 0 1 2 "a" "b" "c" (by decide) (by decide) (by decide)
      (by decide) (fun _ => []) "u" rfl 1 60 0 "x" (fun _ => [(0, "e")]) "v"⟩

/-- One token-bucket operation, applied to an in-range bucket whose
`last_refill` is not in the observed future, leaves the bucket in range and
stamps `last_refill := now`. -/
theorem tbRun_step_good (C : ℕ) (r : ℚ) (hr : 0 < r) (now : ℕ) (c : Bool)
    (st : TBStore) (k : String)
    (h : ∀ q t, st k = some (q, t) → (0 ≤ q ∧ q ≤ (C : ℚ)) ∧ t ≤ now) :
    ∀ q' t', (tbRun C r now c st k).2 k = some (q', t') →
      (0 ≤ q' ∧ q' ≤ (C : ℚ)) ∧ t' = now := by
  intro q' t' hq'
  simp only [tbRun, tbScript, if_true] at hq'
  injection hq' with hq1
  injection hq1 with hqeq hteq
  refine ⟨?_, hteq.symm⟩
  have hbase : 0 ≤ ((st k).getD ((C : ℚ), now)).1 ∧
      ((st k).getD ((C : ℚ), now)).1 ≤ (C : ℚ) ∧
      (((st k).getD ((C : ℚ), now)).2 : ℕ) ≤ now := by
    cases hst : st k with
    | none => refine ⟨by simp [hst], by simp [hst], by simp [hst]⟩
    | some v =>
      obtain ⟨⟨h1, h2⟩, h3⟩ := h v.1 v.2 (by rw [hst])
      simp [hst, h1, h2, h3]
  have hCge : (0 : ℚ) ≤ (C : ℚ) := by positivity
  have hrefill : 0 ≤ ((now : ℚ) - (((st k).getD ((C : ℚ), now)).2 : ℚ)) / 1000 * r := by
    apply mul_nonneg _ (le_of_lt hr)
    apply div_nonneg _ (by norm_num)
    have : ((((st k).getD ((C : ℚ), now)).2 : ℕ) : ℚ) ≤ (now : ℚ) := by
      exact_mod_cast hbase.2.2
    linarith
  have htok_lb : 0 ≤ min (C : ℚ)
      (((st k).getD ((C : ℚ), now)).1 +
        ((now : ℚ) - (((st k).getD ((C : ℚ), now)).2 : ℚ)) / 1000 * r) :=
    le_min hCge (by linarith [hbase.1])
  have htok_ub : min (C : ℚ)
      (((st k).getD ((C : ℚ), now)).1 +
        ((now : ℚ) - (((st k).getD ((C : ℚ), now)).2 : ℚ)) / 1000 * r) ≤ (C : ℚ) :=
    min_le_left _ _
  subst hqeq
  split_ifs with h1 h2 h3 <;> simp only
  · exact ⟨by linarith, by linarith⟩
  · exact ⟨htok_lb, htok_ub⟩
  · exact ⟨htok_lb, htok_ub⟩
  · exact ⟨htok_lb, htok_ub⟩

theorem tbExec_append (C : ℕ) (r : ℚ) (k : String) :
    ∀ (p q : List (ℕ × Bool)) (st : TBStore),
      tbExec C r k (p ++ q) st = tbExec C r k q (tbExec C r k p st) := by
  intro p
  induction p with
  | nil => intro q st; rfl
  | cons e p ih =>
    intro q st
    simp only [List.cons_append, tbExec, List.append_eq, ih]

/-- Executing a prefix of a time-ordered operation sequence preserves
`TBGood` with respect to the remaining operations. -/
theorem tbExec_preserves (C : ℕ) (r : ℚ) (hr : 0 < r) (k : String) :
    ∀ (p s : List (ℕ × Bool)) (st : TBStore),
      List.Chain' (· ≤ ·) ((p ++ s).map Prod.fst) →
      TBGood C k st (p ++ s) → TBGood C k (tbExec C r k p st) s := by
  intro p
  induction p with
  | nil => intro s st _ hgood; exact hgood
  | cons e p ih =>
    intro s st hchain hgood
    simp only [List.cons_append, List.map_cons] at hchain
    have hchain' := (List.chain'_cons'.mp hchain).2
    have hhead := (List.chain'_cons'.mp hchain).1
    simp only [List.cons_append, tbExec]
    apply ih _ _ hchain'
    intro q' t' hq'
    have hstep := tbRun_step_good C r hr e.1 e.2 st k
      (fun q t hq => ⟨(hgood q t hq).1, (hgood q t hq).2 e (by simp)⟩) q' t' hq'
    refine ⟨hstep.1, ?_⟩
    intro e2 he2
    rw [hstep.2]
    apply hhead
    rw [List.head?_map, Option.mem_def] at *
    rw [he2]
    rfl

/-- **C3** (amended): token bucket with capacity `C` and `refillRate > 0`:
along any operation sequence whose observed clock is non-decreasing (and
does not start behind the stored `last_refill`), the stored tokens satisfy
`0 ≤ tokens ≤ C` after every operation, and the stored `last_refill` never
decreases from one operation to the next. -/
theorem tokenBucket_invariant (C : ℕ) (r : ℚ) (hr : 0 < r) (k : String)
    (ops : List (ℕ × Bool)) (st : TBStore)
    (hchain : List.Chain' (· ≤ ·) (ops.map Prod.fst))
    (hinit : TBGood C k st ops) :
    (∀ p s, ops = p ++ s → ∀ q t, tbExec C r k p st k = some (q, t) →
        0 ≤ q ∧ q ≤ (C : ℚ)) ∧
    (∀ p e s, ops = p ++ e :: s → ∀ q t q' t',
        tbExec C r k p st k = some (q, t) →
        tbExec C r k (p ++ [e]) st k = some (q', t') → t ≤ t') := by
  constructor
  · intro p s hps q t hq
    subst hps
    exact ((tbExec_preserves C r hr k p s st hchain hinit) q t hq).1
  · intro p e s hps q t q' t' hq hq'
    subst hps
    have hchain2 : List.Chain' (· ≤ ·) ((p ++ e :: s).map Prod.fst) := hchain
    have hgood := tbExec_preserves C r hr k p (e :: s) st hchain2 hinit
    have hle : t ≤ e.1 := (hgood q t hq).2 e (by simp)
    rw [tbExec_append] at hq'
    have hstep := tbRun_step_good C r hr e.1 e.2 (tbExec C r k p st) k
      (fun q2 t2 hq2 => ⟨(hgood q2 t2 hq2).1, (hgood q2 t2 hq2).2 e (by simp)⟩)
      q' t' (by simpa [tbExec] using hq')
    omega

/-- **C3** (counterexample to the claim as stated): with capacity 2,
refillRate 2, a `limit` at `now = 1000` followed by a `limit` observing the
earlier clock value `now = 0` drives the stored tokens to `-1 < 0` and
moves `last_refill` backwards from 1000 to 0. -/
theorem tokenBucket_invariant_counterexample :
    tbExec 2 2 "u" [(1000, true)] (fun _ => none) "u" = some (1, 1000) ∧
    tbExec 2 2 "u" [(1000, true), (0, true)] (fun _ => none) "u" = some (-1, 0) ∧
    ((-1 : ℚ) < 0 ∧ (0 : ℕ) < 1000) := by
  refine ⟨?_, ?_, by norm_num⟩ <;>
    norm_num [tbExec, tbRun, tbScript, min_def]

/-- Concrete instantiation of `tokenBucket_invariant`: capacity 2,
refill 2/s, consuming calls at 0 ms and 600 ms. -/
theorem tokenBucket_invariant_witness :
    ((0 : ℚ) < 2 ∧ List.Chain' (· ≤ ·) ([(0, true), (600, true)].map Prod.fst) ∧
      TBGood 2 "u" (fun _ => none) [(0, true), (600, true)]) ∧
    ((∀ p s, ([((0 : ℕ), true), (600, true)]) = p ++ s →
        ∀ q t, tbExec 2 2 "u" p (fun _ => none) "u" = some (q, t) →
          0 ≤ q ∧ q ≤ ((2 : ℕ) : ℚ)) ∧
     (∀ p e s, ([((0 : ℕ), true), (600, true)]) = p ++ e :: s → ∀ q t q' t',
        tbExec 2 2 "u" p (fun _ => none) "u" = some (q, t) →
        tbExec 2 2 "u" (p ++ [e]) (fun _ => none) "u" = some (q', t') → t ≤ t')) :=
  ⟨⟨by decide, by simp, by simp [TBGood]⟩,
    tokenBucket_invariant 2 2 (by decide) "u" [(0, true), (600, true)]
      (fun _ => none) (by simp) (by simp [TBGood])⟩

theorem zprune_zprune (l : List (ℕ × String)) (s1 s2 : ℤ) (h : s1 ≤ s2) :
    zprune (zprune l s1) s2 = zprune l s2 := by
  unfold zprune
  rw [List.filter_filter]
  apply List.filter_congr
  intro e _
  by_cases h2 : s2 < (e.1 : ℤ)
  · have h1 : s1 < (e.1 : ℤ) := lt_of_le_of_lt h h2
    simp [h1, h2]
  · simp [h2]

theorem min_clamp (c x b : ℚ) (hb : 0 ≤ b) :
    min c (min c x + b) = min c (x + b) := by
  rcases le_total x c with hxc | hcx
  · rw [min_eq_right hxc]
  · rw [min_eq_left hcx, min_eq_left (by linarith), min_eq_left (by linarith)]

/-- A sliding-window `peek` at `t1 ≤ t2` is invisible to a `limit` at `t2`:
the limit returns the same result and produces the same store. -/
theorem swPeek_invisible (L W t1 t2 : ℕ) (m : String) (st : SWStore)
    (k : String) (h : t1 ≤ t2) :
    swLimit L W t2 m (swPeek L W t1 st k).2 k = swLimit L W t2 m st k := by
  have hkey : (swPeek L W t1 st k).2 k
      = zprune (st k) ((t1 : ℤ) - ((W * 1000 : ℕ) : ℤ)) := by
    simp [swPeek]
  have hother : ∀ k2, k2 ≠ k → (swPeek L W t1 st k).2 k2 = st k2 := by
    intro k2 hk2
    simp [swPeek, hk2]
  have hprune : zprune ((swPeek L W t1 st k).2 k) ((t2 : ℤ) - ((W * 1000 : ℕ) : ℤ))
      = zprune (st k) ((t2 : ℤ) - ((W * 1000 : ℕ) : ℤ)) := by
    rw [hkey, zprune_zprune]
    omega
  have hsteq : ∀ A : List (ℕ × String),
      (fun k2 => if k2 = k then A else (swPeek L W t1 st k).2 k2)
        = (fun k2 => if k2 = k then A else st k2) := by
    intro A
    funext k2
    by_cases hk2 : k2 = k
    · simp [hk2]
    · simp [hk2, hother k2 hk2]
  simp only [swLimit, swScript, hprune, hsteq]

/-- Any number of sliding-window `peek`s, at non-decreasing times all at or
before `t2`, are invisible to a `limit` at `t2`. -/
theorem swPeeks_invisible (L W : ℕ) (m k : String) :
    ∀ (ts : List ℕ) (t2 : ℕ) (st : SWStore),
      List.Pairwise (· ≤ ·) (ts ++ [t2]) →
      swLimit L W t2 m (swPeeks L W k ts st) k = swLimit L W t2 m st k := by
  intro ts
  induction ts with
  | nil => intro t2 st _; rfl
  | cons t1 ts ih =>
    intro t2 st hp
    rw [List.cons_append, List.pairwise_cons] at hp
    have h12 : t1 ≤ t2 := hp.1 t2 (by simp)
    calc swLimit L W t2 m (swPeeks L W k ts (swPeek L W t1 st k).2) k
        = swLimit L W t2 m (swPeek L W t1 st k).2 k := ih t2 _ hp.2
      _ = swLimit L W t2 m st k := swPeek_invisible L W t1 t2 m st k h12

/-- A token-bucket `peek` at `t1 ≤ t2` is invisible to any subsequent
operation at `t2` (consuming or not): same result, same store. -/
theorem tbPeek_invisible (C : ℕ) (r : ℚ) (hr : 0 < r) (t1 t2 : ℕ) (c : Bool)
    (st : TBStore) (k : String) (h : t1 ≤ t2) :
    tbRun C r t2 c (tbPeek C r t1 st k).2 k = tbRun C r t2 c st k := by
  have hb : (0 : ℚ) ≤ ((t2 : ℚ) - (t1 : ℚ)) / 1000 * r := by
    apply mul_nonneg _ (le_of_lt hr)
    apply div_nonneg _ (by norm_num)
    have : (t1 : ℚ) ≤ (t2 : ℚ) := by exact_mod_cast h
    linarith
  have hkey : (tbPeek C r t1 st k).2 k
      = some (min (C : ℚ) (((st k).getD ((C : ℚ), t1)).1 +
          ((t1 : ℚ) - (((st k).getD ((C : ℚ), t1)).2 : ℚ)) / 1000 * r), t1) := by
    simp [tbPeek, tbRun, tbScript]
    split_ifs <;> rfl
  have hother : ∀ k2, k2 ≠ k → (tbPeek C r t1 st k).2 k2 = st k2 := by
    intro k2 hk2
    simp [tbPeek, tbRun, tbScript, hk2]
  have htok : min (C : ℚ)
      ((min (C : ℚ) (((st k).getD ((C : ℚ), t1)).1 +
          ((t1 : ℚ) - (((st k).getD ((C : ℚ), t1)).2 : ℚ)) / 1000 * r)) +
        ((t2 : ℚ) - (t1 : ℚ)) / 1000 * r)
      = min (C : ℚ) (((st k).getD ((C : ℚ), t2)).1 +
          ((t2 : ℚ) - (((st k).getD ((C : ℚ), t2)).2 : ℚ)) / 1000 * r) := by
    rw [min_clamp _ _ _ hb]
    cases hst : st k with
    | none =>
      simp [hst]
      ring_nf
      ring_nf at hb
      linarith
    | some v =>
      simp [hst]
      ring_nf
  have hsteq : ∀ A : Option (ℚ × ℕ),
      (fun k2 => if k2 = k then A else (tbPeek C r t1 st k).2 k2)
        = (fun k2 => if k2 = k then A else st k2) := by
    intro A
    funext k2
    by_cases hk2 : k2 = k
    · simp [hk2]
    · simp [hk2, hother k2 hk2]
  simp only [tbRun, tbScript, hkey, Option.getD_some]
  rw [htok]
  simp only [hsteq]

/-- Any number of token-bucket `peek`s at non-decreasing times are
invisible to a subsequent operation. -/
theorem tbPeeks_invisible (C : ℕ) (r : ℚ) (hr : 0 < r) (c : Bool) (k : String) :
    ∀ (ts : List ℕ) (t2 : ℕ) (st : TBStore),
      List.Pairwise (· ≤ ·) (ts ++ [t2]) →
      tbRun C r t2 c (tbPeeks C r k ts st) k = tbRun C r t2 c st k := by
  intro ts
  induction ts with
  | nil => intro t2 st _; rfl
  | cons t1 ts ih =>
    intro t2 st hp
    rw [List.cons_append, List.pairwise_cons] at hp
    have h12 : t1 ≤ t2 := hp.1 t2 (by simp)
    calc tbRun C r t2 c (tbPeeks C r k ts (tbPeek C r t1 st k).2) k
        = tbRun C r t2 c (tbPeek C r t1 st k).2 k := ih t2 _ hp.2
      _ = tbRun C r t2 c st k := tbPeek_invisible C r hr t1 t2 c st k h12

/-- A repeated sliding-window `peek` at the same time is the identity:
same result, same store. -/
theorem swPeek_peek (L W t : ℕ) (st : SWStore) (k : String) :
    swPeek L W t (swPeek L W t st k).2 k = swPeek L W t st k := by
  have hkey : (swPeek L W t st k).2 k
      = zprune (st k) ((t : ℤ) - ((W * 1000 : ℕ) : ℤ)) := by
    simp [swPeek]
  have hother : ∀ k2, k2 ≠ k → (swPeek L W t st k).2 k2 = st k2 := by
    intro k2 hk2
    simp [swPeek, hk2]
  have hprune : zprune ((swPeek L W t st k).2 k) ((t : ℤ) - ((W * 1000 : ℕ) : ℤ))
      = zprune (st k) ((t : ℤ) - ((W * 1000 : ℕ) : ℤ)) := by
    rw [hkey, zprune_zprune _ _ _ le_rfl]
  have hsteq : ∀ A : List (ℕ × String),
      (fun k2 => if k2 = k then A else (swPeek L W t st k).2 k2)
        = (fun k2 => if k2 = k then A else st k2) := by
    intro A
    funext k2
    by_cases hk2 : k2 = k
    · simp [hk2]
    · simp [hk2, hother k2 hk2]
  conv_lhs => rw [swPeek]
  conv_rhs => rw [swPeek]
  simp only [hprune, hsteq]

/-- **C4** (amended): for every strategy, an immediately repeated `peek` at
the same observed time returns the identical result (and leaves the same
store), and any number of `peek`s at non-decreasing observed times between
two `limit`s never changes the result or the store the subsequent `limit`
produces.  (At *different* observed times two peeks may legitimately
differ — see the counterexample.) -/
theorem peek_purity :
    (∀ (L W t1 t2 : ℕ) (st : FWStore) (k : String),
        (fwPeek L W t1 st k).2 = st ∧
        (fwPeek L W t1 (fwPeek L W t1 st k).2 k).1 = (fwPeek L W t1 st k).1 ∧
        fwLimit L W t2 (fwPeek L W t1 st k).2 k = fwLimit L W t2 st k) ∧
    (∀ (L W t : ℕ) (st : SWStore) (k : String),
        swPeek L W t (swPeek L W t st k).2 k = swPeek L W t st k) ∧
    (∀ (L W : ℕ) (m k : String) (ts : List ℕ) (t2 : ℕ) (st : SWStore),
        List.Pairwise (· ≤ ·) (ts ++ [t2]) →
        swLimit L W t2 m (swPeeks L W k ts st) k = swLimit L W t2 m st k) ∧
    (∀ (C : ℕ) (r : ℚ), 0 < r → ∀ (t : ℕ) (st : TBStore) (k : String),
        tbPeek C r t (tbPeek C r t st k).2 k = tbPeek C r t st k) ∧
    (∀ (C : ℕ) (r : ℚ), 0 < r →
      ∀ (c : Bool) (k : String) (ts : List ℕ) (t2 : ℕ) (st : TBStore),
        List.Pairwise (· ≤ ·) (ts ++ [t2]) →
        tbRun C r t2 c (tbPeeks C r k ts st) k = tbRun C r t2 c st k) := by
  refine ⟨?_, ?_, ?_, ?_, ?_⟩
  · intro L W t1 t2 st k
    exact ⟨rfl, rfl, rfl⟩
  · intro L W t st k
    exact swPeek_peek L W t st k
  · intro L W m k ts t2 st hp
    exact swPeeks_invisible L W m k ts t2 st hp
  · intro C r hr t st k
    exact tbPeek_invisible C r hr t t false st k le_rfl
  · intro C r hr c k ts t2 st hp
    exact tbPeeks_invisible C r hr c k ts t2 st hp

/-- **C4** (counterexample to the claim as stated): token bucket with
capacity 1, refill 1/s; after a `limit` at 0 ms, a `peek` at 0 ms and a
`peek` at 1000 ms — both between that `limit` and a later one, at
non-decreasing times — return different results (`allowed` flips as the
bucket refills). -/
theorem peek_purity_counterexample :
    (tbPeek 1 1 0 (tbLimit 1 1 0 (fun _ => none) "u").2 "u").1.allowed = false ∧
    (tbPeek 1 1 1000
        (tbPeek 1 1 0 (tbLimit 1 1 0 (fun _ => none) "u").2 "u").2 "u").1.allowed = true ∧
    (tbPeek 1 1 0 (tbLimit 1 1 0 (fun _ => none) "u").2 "u").1
      ≠ (tbPeek 1 1 1000
          (tbPeek 1 1 0 (tbLimit 1 1 0 (fun _ => none) "u").2 "u").2 "u").1 := by
  refine ⟨?_, ?_, ?_⟩ <;>
    norm_num [tbPeek, tbLimit, tbRun, tbScript, min_def, RateLimitResult.mk.injEq]

/-- Concrete instantiation of `peek_purity`. -/
theorem peek_purity_witness :
    ((fwPeek 3 60 0 (fun _ => none) "u").2 = (fun _ => none : FWStore) ∧
      (fwPeek 3 60 0 (fwPeek 3 60 0 (fun _ => none : FWStore) "u").2 "u").1
        = (fwPeek 3 60 0 (fun _ => none : FWStore) "u").1 ∧
      fwLimit 3 60 5 (fwPeek 3 60 0 (fun _ => none : FWStore) "u").2 "u"
        = fwLimit 3 60 5 (fun _ => none : FWStore) "u") ∧
    (swPeek 2 60 5 (swPeek 2 60 5 (fun _ => [] : SWStore) "u").2 "u"
      = swPeek 2 60 5 (fun _ => [] : SWStore) "u") ∧
    (List.Pairwise (· ≤ ·) ([5, 6] ++ [7]) ∧
      swLimit 2 60 7 "m" (swPeeks 2 60 "u" [5, 6] (fun _ => [] : SWStore)) "u"
        = swLimit 2 60 7 "m" (fun _ => [] : SWStore) "u") ∧
    ((0 : ℚ) < 2 ∧
      tbPeek 2 2 5 (tbPeek 2 2 5 (fun _ => none : TBStore) "u").2 "u"
        = tbPeek 2 2 5 (fun _ => none : TBStore) "u") ∧
    (tbRun 2 2 7 true (tbPeeks 2 2 "u" [5, 6] (fun _ => none : TBStore)) "u"
      = tbRun 2 2 7 true (fun _ => none : TBStore) "u") :=
  ⟨peek_purity.1 3 60 0 5 (fun _ => none) "u",
   peek_purity.2.1 2 60 5 (fun _ => []) "u",
   ⟨by decide, peek_purity.2.2.1 2 60 "m" "u" [5, 6] 7 (fun _ => []) (by decide)⟩,
   ⟨by decide, peek_purity.2.2.2.1 2 2 (by decide) 5 (fun _ => none) "u"⟩,
   peek_purity.2.2.2.2 2 2 (by decide) true "u" [5, 6] 7 (fun _ => none) (by decide)⟩

theorem cacheKey_ne_lockKey (pfx k : String) :
    cacheKey pfx k ≠ lockKey pfx k := by
  intro h
  have hlen := congrArg String.length h
  rw [lockKey, String.length_append] at hlen
  have h5 : (":lock" : String).length = 5 := rfl
  omega

/-- **C7** evaluated: the constructor's `switch` has no `default`, so an
unknown discriminant does **not** raise at construction (`this.strategy`
is simply left undefined), and the configuration error instead surfaces as
a `TypeError` on the first `limit`/`peek`/`reset` call. -/
theorem rateLimiter_unknown_strategy_eval :
    rlConstruct "leaky-bucket" = none ∧
    rlCallRaises (rlConstruct "leaky-bucket") = true ∧
    rlConstruct "fixed-window" = some StrategyTag.fixedWindow ∧
    rlConstruct "sliding-window" = some StrategyTag.slidingWindow ∧
    rlConstruct "token-bucket" = some StrategyTag.tokenBucket ∧
    rlCallRaises (rlConstruct "fixed-window") = false := by
  decide

/-- **C8**: `getOrSetSafe` with the lease acquired (cold cache, no lock
held): a failing loader's error propagates, nothing is written to the
cache entry, and the lease is released — and on the success path the lease
is released as well. -/
theorem getOrSetSafe_loader_failure {V E : Type} (pfx : String)
    (ser : V → String) (deser : String → Option V) (st : CStore)
    (k : String) (e : E)
    (hmiss : cacheGet pfx deser st k = none)
    (hlock : st (lockKey pfx k) = none) :
    (getOrSetSafeSeq pfx ser deser st k (Except.error e)).1 = Except.error e ∧
    (getOrSetSafeSeq pfx ser deser st k (Except.error e)).2 (cacheKey pfx k)
      = st (cacheKey pfx k) ∧
    (getOrSetSafeSeq pfx ser deser st k (Except.error e)).2 (lockKey pfx k) = none ∧
    (∀ v : V, (getOrSetSafeSeq pfx ser deser st k
        (Except.ok v : Except E V)).2 (lockKey pfx k) = none) := by
  refine ⟨?_, ?_, ?_, ?_⟩
  · simp only [getOrSetSafeSeq, hmiss, hlock]
  · simp only [getOrSetSafeSeq, hmiss, hlock, upd]
    rw [if_neg (cacheKey_ne_lockKey pfx k), if_neg (cacheKey_ne_lockKey pfx k)]
  · simp only [getOrSetSafeSeq, hmiss, hlock, upd, if_true]
  · intro v
    simp only [getOrSetSafeSeq, hmiss, hlock, upd, if_true]

/-- Concrete instantiation of `getOrSetSafe_loader_failure`. -/
theorem getOrSetSafe_loader_failure_witness :
    (cacheGet "cache" (fun _ => (none : Option ℕ)) (fun _ => none) "user:42" = none ∧
      (fun _ => none : CStore) (lockKey "cache" "user:42") = none) ∧
    ((getOrSetSafeSeq "cache" (fun _ => "s") (fun _ => (none : Option ℕ))
        (fun _ => none) "user:42" (Except.error (7 : ℕ))).1 = Except.error 7 ∧
     (getOrSetSafeSeq "cache" (fun _ => "s") (fun _ => (none : Option ℕ))
        (fun _ => none) "user:42" (Except.error (7 : ℕ))).2 (cacheKey "cache" "user:42")
        = (fun _ => none : CStore) (cacheKey "cache" "user:42") ∧
     (getOrSetSafeSeq "cache" (fun _ => "s") (fun _ => (none : Option ℕ))
        (fun _ => none) "user:42" (Except.error (7 : ℕ))).2 (lockKey "cache" "user:42")
        = none ∧
     (∀ v : ℕ, (getOrSetSafeSeq "cache" (fun _ => "s") (fun _ => (none : Option ℕ))
        (fun _ => none) "user:42" (Except.ok v : Except ℕ ℕ)).2
          (lockKey "cache" "user:42") = none)) :=
  ⟨⟨rfl, rfl⟩,
    getOrSetSafe_loader_failure "cache" (fun _ => "s") (fun _ => none)
      (fun _ => none) "user:42" 7 rfl rfl⟩

theorem digitChar_lt10_ne_colon : ∀ d, d < 10 → Nat.digitChar d ≠ ':' := by
  decide

theorem natToString_no_colon (n : ℕ) : ':' ∉ (natToString n).data := by
  unfold natToString
  split_ifs with h
  · decide
  · show ':' ∉ natCharsAux n n []
    rw [natCharsAux_eq n n [] le_rfl]
    simp only [List.append_nil]
    intro hmem
    rw [List.mem_reverse] at hmem
    obtain ⟨d, hd, hdc⟩ := List.mem_map.mp hmem
    exact digitChar_lt10_ne_colon d (Nat.digits_lt_base (by norm_num) hd) hdc

/-- Splitting a character list at a colon that is known not to occur in
either tail is unambiguous. -/
theorem colon_split : ∀ {A : List Char} {B n m : List Char}, ':' ∉ n → ':' ∉ m →
    A ++ ':' :: n = B ++ ':' :: m → A = B ∧ n = m := by
  intro A
  induction A with
  | nil =>
    intro B n m hn hm h
    cases B with
    | nil => simpa using h
    | cons b B =>
      simp only [List.nil_append, List.cons_append, List.cons.injEq] at h
      exfalso
      apply hn
      rw [h.2]
      exact List.mem_append_right _ (by simp)
  | cons a A ih =>
    intro B n m hn hm h
    cases B with
    | nil =>
      simp only [List.cons_append, List.nil_append, List.cons.injEq] at h
      exfalso
      apply hm
      rw [← h.2]
      exact List.mem_append_right _ (by simp)
    | cons b B =>
      simp only [List.cons_append, List.cons.injEq] at h
      obtain ⟨hAB, hnm⟩ := ih hn hm h.2
      exact ⟨by rw [h.1, hAB], hnm⟩

theorem prefixKey_inj (p A B : String) (h : prefixKey p A = prefixKey p B) :
    A = B := by
  have hd := congrArg String.data h
  simp only [prefixKey, String.data_append] at hd
  exact String.ext (List.append_cancel_left hd)

theorem lockKey_inj (p A B : String) (h : lockKey p A = lockKey p B) : A = B := by
  have hd := congrArg String.data h
  simp only [lockKey, cacheKey, prefixKey, String.data_append, List.append_assoc,
    List.append_cancel_left_eq, List.append_cancel_right_eq, List.cons.injEq,
    true_and] at hd
  exact String.ext hd

theorem cacheKey_ne_lockKey_of_ne (p A B : String) (h : A ≠ B ++ ":lock") :
    cacheKey p A ≠ lockKey p B := by
  intro heq
  apply h
  have hd := congrArg String.data heq
  simp only [lockKey, cacheKey, prefixKey, String.data_append, List.append_assoc,
    List.append_cancel_left_eq, List.cons.injEq, true_and] at hd
  apply String.ext
  rw [String.data_append]
  exact hd

theorem keyColon_inj (X Y : String) (n m : ℕ)
    (h : X ++ ":" ++ natToString n = Y ++ ":" ++ natToString m) : X = Y := by
  have hd := congrArg String.data h
  simp only [String.data_append] at hd
  have hd' : X.data ++ ':' :: (natToString n).data
      = Y.data ++ ':' :: (natToString m).data := by
    simpa [List.append_assoc] using hd
  obtain ⟨hXY, -⟩ := colon_split (natToString_no_colon n) (natToString_no_colon m) hd'
  exact String.ext hXY

/-- A window key derived from caller key `A` never collides with any
window key of a different caller key `B` under the same namespace. -/
theorem windowKey_ne (p A B : String) (hAB : A ≠ B) (W now m : ℕ) :
    windowKey (prefixKey p A) W now ≠ prefixKey p B ++ ":" ++ natToString m := by
  intro h
  unfold windowKey at h
  exact hAB (prefixKey_inj p A B (keyColon_inj _ _ _ _ h))

/-- Single cache operations with key `A` touch neither `B`'s cache entry
nor `B`'s lock key, provided `A ≠ B` and `A ≠ B ++ ":lock"`. -/
theorem cache_ops_frame {V E : Type} (p A B : String) (hAB : A ≠ B)
    (hAlock : A ≠ B ++ ":lock") (ser : V → String) (deser : String → Option V)
    (st : CStore) (v : V) (loader : Except E V) :
    ∀ key2, key2 = cacheKey p B ∨ key2 = lockKey p B →
      cacheSet p ser st A v key2 = st key2 ∧
      (cacheDelete p st A).2 key2 = st key2 ∧
      (getOrSet p ser deser st A loader).2 key2 = st key2 ∧
      (getOrSetSafeSeq p ser deser st A loader).2 key2 = st key2 := by
  intro key2 hk2
  have hck : key2 ≠ cacheKey p A := by
    rcases hk2 with h | h <;> subst h
    · exact fun h => hAB (prefixKey_inj p B A h).symm
    · exact fun h => cacheKey_ne_lockKey_of_ne p A B hAlock h.symm
  refine ⟨?_, ?_, ?_, ?_⟩
  · simp [cacheSet, upd, hck]
  · simp [cacheDelete, upd, hck]
  · unfold getOrSet
    cases hget : cacheGet p deser st A with
    | some v0 => rfl
    | none =>
      cases loader with
      | ok v1 => simp [cacheSet, upd, hck]
      | error e => rfl
  · unfold getOrSetSafeSeq
    cases hget : cacheGet p deser st A with
    | some v0 => rfl
    | none =>
      cases hlk : st (lockKey p A) with
      | none =>
        cases loader with
        | ok v1 =>
          by_cases hkey : key2 = lockKey p A
          · subst hkey
            simp [upd, hlk]
          · simp [upd, cacheSet, hck, hkey]
        | error e =>
          by_cases hkey : key2 = lockKey p A
          · subst hkey
            simp [upd, hlk]
          · simp [upd, hkey]
      | some w =>
        cases loader with
        | ok v1 => simp [cacheSet, upd, hck]
        | error e => rfl

/-- **C5** (amended): key isolation.  Rate-limiter operations with caller
key `A` leave every store record of a different caller key `B` unchanged;
cache operations do too, provided additionally `A ≠ B ++ ":lock"` — the
lock key `` `${key}:lock` `` of `B` is a plain cache key reachable as the
entry of the colliding caller key `B ++ ":lock"` (see the counterexample). -/
theorem key_isolation :
    (∀ (p A B : String), A ≠ B → ∀ (L W now m : ℕ) (st : FWStore),
        (fwLimit L W now st (prefixKey p A)).2 (prefixKey p B ++ ":" ++ natToString m)
          = st (prefixKey p B ++ ":" ++ natToString m) ∧
        fwReset W now st (prefixKey p A) (prefixKey p B ++ ":" ++ natToString m)
          = st (prefixKey p B ++ ":" ++ natToString m)) ∧
    (∀ (p A B : String), A ≠ B → ∀ (L W now : ℕ) (mem : String) (st : SWStore),
        (swLimit L W now mem st (prefixKey p A)).2 (prefixKey p B)
          = st (prefixKey p B) ∧
        (swPeek L W now st (prefixKey p A)).2 (prefixKey p B) = st (prefixKey p B) ∧
        swReset st (prefixKey p A) (prefixKey p B) = st (prefixKey p B)) ∧
    (∀ (p A B : String), A ≠ B →
      ∀ (C : ℕ) (r : ℚ) (now : ℕ) (c : Bool) (st : TBStore),
        (tbRun C r now c st (prefixKey p A)).2 (prefixKey p B) = st (prefixKey p B) ∧
        tbReset st (prefixKey p A) (prefixKey p B) = st (prefixKey p B)) ∧
    (∀ (V E : Type) (p A B : String), A ≠ B → A ≠ B ++ ":lock" →
      ∀ (ser : V → String) (deser : String → Option V) (st : CStore) (v : V)
        (loader : Except E V) (key2 : String),
        key2 = cacheKey p B ∨ key2 = lockKey p B →
          cacheSet p ser st A v key2 = st key2 ∧
          (cacheDelete p st A).2 key2 = st key2 ∧
          (getOrSet p ser deser st A loader).2 key2 = st key2 ∧
          (getOrSetSafeSeq p ser deser st A loader).2 key2 = st key2) ∧
    (∀ (V : Type) (p B : String) (ser : V → String) (st : CStore)
        (entries : List (String × V)),
        (∀ e ∈ entries, e.1 ≠ B ∧ e.1 ≠ B ++ ":lock") →
        ∀ key2, key2 = cacheKey p B ∨ key2 = lockKey p B →
          setMany p ser st entries key2 = st key2) ∧
    (∀ (p B : String) (st : CStore) (keys : List String),
        (∀ a ∈ keys, a ≠ B ∧ a ≠ B ++ ":lock") →
        ∀ key2, key2 = cacheKey p B ∨ key2 = lockKey p B →
          deleteMany p st keys key2 = st key2) := by
  have hbfw : ∀ (p A B : String), A ≠ B → ∀ (W now m : ℕ),
      (prefixKey p B ++ ":" ++ natToString m) ≠ windowKey (prefixKey p A) W now :=
    fun p A B hAB W now m h => windowKey_ne p A B hAB W now m h.symm
  have hbk : ∀ (p A B : String), A ≠ B → prefixKey p B ≠ prefixKey p A :=
    fun p A B hAB h => hAB (prefixKey_inj p B A h).symm
  refine ⟨?_, ?_, ?_, ?_, ?_, ?_⟩
  · intro p A B hAB L W now m st
    constructor
    · simp [fwLimit, fwIncr, hbfw p A B hAB W now m]
    · simp [fwReset, hbfw p A B hAB W now m]
  · intro p A B hAB L W now mem st
    refine ⟨?_, ?_, ?_⟩
    · simp only [swLimit, swScript]
      split_ifs <;> simp [hbk p A B hAB]
    · simp [swPeek, hbk p A B hAB]
    · simp [swReset, hbk p A B hAB]
  · intro p A B hAB C r now c st
    constructor
    · simp [tbRun, tbScript, hbk p A B hAB]
    · simp [tbReset, hbk p A B hAB]
  · intro V E p A B hAB hAlock ser deser st v loader key2 hk2
    exact cache_ops_frame p A B hAB hAlock ser deser st v loader key2 hk2
  · intro V p B ser st entries
    revert st
    induction entries with
    | nil => intro st _ key2 _; rfl
    | cons e es ih =>
      intro st hents key2 hk2
      have he := hents e (by simp)
      have hothers : ∀ e2 ∈ es, e2.1 ≠ B ∧ e2.1 ≠ B ++ ":lock" :=
        fun e2 he2 => hents e2 (by simp [he2])
      have hstep := (cache_ops_frame p e.1 B he.1 he.2 ser
        (fun _ => (none : Option V)) st e.2 (Except.error () : Except Unit V)
        key2 hk2).1
      calc setMany p ser st (e :: es) key2
          = setMany p ser (cacheSet p ser st e.1 e.2) es key2 := rfl
        _ = cacheSet p ser st e.1 e.2 key2 := ih (cacheSet p ser st e.1 e.2) hothers key2 hk2
        _ = st key2 := hstep
  · intro p B st keys
    revert st
    induction keys with
    | nil => intro st _ key2 _; rfl
    | cons a as ih =>
      intro st hkeys key2 hk2
      have ha := hkeys a (by simp)
      have hothers : ∀ a2 ∈ as, a2 ≠ B ∧ a2 ≠ B ++ ":lock" :=
        fun a2 h2 => hkeys a2 (by simp [h2])
      have hck : key2 ≠ cacheKey p a := by
        rcases hk2 with h | h <;> subst h
        · exact fun h => ha.1 (prefixKey_inj p B a h).symm
        · exact fun h => cacheKey_ne_lockKey_of_ne p a B ha.2 h.symm
      calc deleteMany p st (a :: as) key2
          = deleteMany p (upd st (cacheKey p a) none) as key2 := rfl
        _ = upd st (cacheKey p a) none key2 := ih (upd st (cacheKey p a) none) hothers key2 hk2
        _ = st key2 := by simp [upd, hck]

/-- **C5** (counterexample to the claim as stated): the caller keys
`A = "x:lock"` and `B = "x"` are distinct, yet `Cache.delete("x:lock")`
deletes `B`'s lock lease — `A`'s cache entry key and `B`'s lock key are the
same Redis key. -/
theorem key_isolation_counterexample :
    ("x:lock" : String) ≠ "x" ∧
    cacheKey "cache" "x:lock" = lockKey "cache" "x" ∧
    (fun key2 => if key2 = lockKey "cache" "x" then some "1" else none : CStore)
        (lockKey "cache" "x") = some "1" ∧
    (cacheDelete "cache"
        (fun key2 => if key2 = lockKey "cache" "x" then some "1" else none)
        "x:lock").2 (lockKey "cache" "x") = none := by
  refine ⟨by decide, by decide, by simp, ?_⟩
  simp [cacheDelete, upd, cacheKey, lockKey, prefixKey]

/-- Concrete instantiation of `key_isolation`. -/
theorem key_isolation_witness :
    (("a" : String) ≠ "b" ∧ ("a" : String) ≠ "b" ++ ":lock") ∧
    ((fwLimit 3 60 0 (fun _ => none) (prefixKey "rl" "a")).2
        (prefixKey "rl" "b" ++ ":" ++ natToString 0)
      = (fun _ => none : FWStore) (prefixKey "rl" "b" ++ ":" ++ natToString 0) ∧
      fwReset 60 0 (fun _ => none) (prefixKey "rl" "a")
        (prefixKey "rl" "b" ++ ":" ++ natToString 0)
      = (fun _ => none : FWStore) (prefixKey "rl" "b" ++ ":" ++ natToString 0)) ∧
    ((swLimit 3 60 0 "m" (fun _ => []) (prefixKey "rl" "a")).2 (prefixKey "rl" "b")
      = (fun _ => [] : SWStore) (prefixKey "rl" "b")) ∧
    ((tbRun 2 2 0 true (fun _ => none) (prefixKey "rl" "a")).2 (prefixKey "rl" "b")
      = (fun _ => none : TBStore) (prefixKey "rl" "b")) ∧
    ((getOrSetSafeSeq "cache" (fun n : ℕ => natToString n) (fun _ => none)
        (fun _ => none) "a" (Except.ok 5 : Except Unit ℕ)).2 (cacheKey "cache" "b")
      = (fun _ => none : CStore) (cacheKey "cache" "b")) ∧
    (setMany "cache" (fun n : ℕ => natToString n) (fun _ => none) [("a", 5)]
        (lockKey "cache" "b")
      = (fun _ => none : CStore) (lockKey "cache" "b")) ∧
    (deleteMany "cache" (fun _ => none) ["a"] (cacheKey "cache" "b")
      = (fun _ => none : CStore) (cacheKey "cache" "b")) :=
  ⟨⟨by decide, by decide⟩,
    key_isolation.1 "rl" "a" "b" (by decide) 3 60 0 0 (fun _ => none),
    (key_isolation.2.1 "rl" "a" "b" (by decide) 3 60 0 "m" (fun _ => [])).1,
    (key_isolation.2.2.1 "rl" "a" "b" (by decide) 2 2 0 true (fun _ => none)).1,
    (key_isolation.2.2.2.1 ℕ Unit "cache" "a" "b" (by decide) (by decide)
      (fun n => natToString n) (fun _ => none) (fun _ => none) 5 (Except.ok 5)
      (cacheKey "cache" "b") (Or.inl rfl)).2.2.2,
    key_isolation.2.2.2.2.1 ℕ "cache" "b" (fun n => natToString n) (fun _ => none)
      [("a", 5)] (by decide) (lockKey "cache" "b") (Or.inr rfl),
    key_isolation.2.2.2.2.2 "cache" "b" (fun _ => none) ["a"] (by decide)
      (cacheKey "cache" "b") (Or.inl rfl)⟩

/-- One step preserves `LockInv` as long as a `tryAcquire` never falls on
an expired-but-unreleased lease record. -/
theorem lockStep_inv {n : ℕ} (s : LockState n) (a : LockAction n)
    (hinv : LockInv s)
    (hsafe : ∀ (i : Fin n) (ttl : ℕ), a = .tryAcquire i ttl →
      ∀ (j : Fin n) (exp : ℕ), s.lock = some (j, exp) → s.time < exp) :
    LockInv (lockStep s a) := by
  cases a with
  | tick t =>
    intro i hi
    simp only [lockStep] at hi ⊢
    split_ifs at hi ⊢ <;> exact hinv i hi
  | tryAcquire i ttl =>
    intro j hj
    simp only [lockStep] at hj ⊢
    by_cases hidle : s.phase i = LockPhase.idle
    · rw [if_pos hidle] at hj ⊢
      cases hlk : s.lock with
      | none =>
        simp only [hlk] at hj ⊢
        by_cases hji : j = i
        · exact ⟨s.time + ttl, by rw [hji]⟩
        · simp only [hji, if_neg, if_false] at hj
          obtain ⟨exp, hexp⟩ := hinv j hj
          rw [hexp] at hlk
          exact absurd hlk (by simp)
      | some v =>
        obtain ⟨o, exp⟩ := v
        have hlt := hsafe i ttl rfl o exp hlk
        simp only [hlk] at hj ⊢
        rw [if_neg (by omega)] at hj ⊢
        by_cases hji : j = i
        · subst hji
          simp at hj
        · simp only [hji, if_false] at hj
          obtain ⟨e2, hs⟩ := hinv j hj
          refine ⟨e2, ?_⟩
          rw [← hlk]
          exact hs
    · rw [if_neg hidle] at hj ⊢
      exact hinv j hj
  | release i =>
    intro j hj
    simp only [lockStep] at hj ⊢
    by_cases hh : s.phase i = LockPhase.holder
    · rw [if_pos hh] at hj ⊢
      by_cases hji : j = i
      · subst hji
        simp at hj
      · simp only [hji, if_false] at hj
        obtain ⟨exp, hexp⟩ := hinv j hj
        obtain ⟨exp2, hexp2⟩ := hinv i hh
        rw [hexp] at hexp2
        injection hexp2 with hpair
        injection hpair with hid _
        exact absurd hid hji
    · rw [if_neg hh] at hj ⊢
      exact hinv j hj

/-- `LockInv` holds after any run whose `tryAcquire` events never fall on
an expired-but-unreleased lease record. -/
theorem lockRun_inv {n : ℕ} : ∀ (acts : List (LockAction n)) (s : LockState n),
    LockInv s →
    (∀ idx, idx < acts.length → ∀ (i : Fin n) (ttl : ℕ),
      acts[idx]? = some (.tryAcquire i ttl) →
      ∀ (j : Fin n) (exp : ℕ),
        (lockRun s (acts.take idx)).lock = some (j, exp) →
        (lockRun s (acts.take idx)).time < exp) →
    LockInv (lockRun s acts) := by
  intro acts
  induction acts with
  | nil => intro s hinv _; exact hinv
  | cons a acts ih =>
    intro s hinv hsafe
    show LockInv (lockRun (lockStep s a) acts)
    apply ih
    · apply lockStep_inv s a hinv
      intro i ttl ha j exp hlk
      exact hsafe 0 (by simp) i ttl (by simp [ha]) j exp hlk
    · intro idx hidx i ttl hact j exp hlk
      exact hsafe (idx + 1) (by simpa using hidx) i ttl (by simpa using hact)
        j exp hlk

/-- **C6** (amended): in every state of the lock protocol reachable by a
run in which no `SET NX` happens while an expired lease record is still
present (i.e., every holder releases before its `lockTTL` elapses), at
most one caller is in the guarded section at a time.  When a lease *does*
expire under its holder, a second caller can acquire and two callers
proceed as holder simultaneously — see the counterexample. -/
theorem lock_at_most_one_holder (n : ℕ) (acts : List (LockAction n))
    (hsafe : ∀ idx, idx < acts.length → ∀ (i : Fin n) (ttl : ℕ),
      acts[idx]? = some (.tryAcquire i ttl) →
      ∀ (j : Fin n) (exp : ℕ),
        (lockRun (lockInit n) (acts.take idx)).lock = some (j, exp) →
        (lockRun (lockInit n) (acts.take idx)).time < exp) :
    ∀ i j : Fin n, (lockRun (lockInit n) acts).phase i = LockPhase.holder →
      (lockRun (lockInit n) acts).phase j = LockPhase.holder → i = j := by
  have hinv := lockRun_inv acts (lockInit n) (fun i hi => absurd hi (by simp [lockInit])) hsafe
  intro i j hi hj
  obtain ⟨e1, h1⟩ := hinv i hi
  obtain ⟨e2, h2⟩ := hinv j hj
  rw [h1] at h2
  exact congrArg Prod.fst (Option.some.inj h2)

/-- **C6** (counterexample to the claim as stated): caller 0 acquires with
`lockTTL` 1000 ms, the lease expires at `t = 1000` while caller 0 is still
in the guarded section, caller 1's `SET NX` then succeeds — both callers
now proceed as the lease holder. -/
theorem lock_two_holders_counterexample :
    (lockRun (lockInit 2)
        [LockAction.tryAcquire 0 1000, LockAction.tick 1000,
         LockAction.tryAcquire 1 1000]).phase 0 = LockPhase.holder ∧
    (lockRun (lockInit 2)
        [LockAction.tryAcquire 0 1000, LockAction.tick 1000,
         LockAction.tryAcquire 1 1000]).phase 1 = LockPhase.holder ∧
    (0 : Fin 2) ≠ 1 := by
  refine ⟨?_, ?_, by decide⟩ <;> rfl

/-- Concrete instantiation of `lock_at_most_one_holder`: acquire, release,
then a second acquire — no expiry overtake, at most one holder. -/
theorem lock_at_most_one_holder_witness :
    (∀ idx, idx < ([LockAction.tryAcquire (0 : Fin 2) 1000, LockAction.release 0,
        LockAction.tryAcquire 1 1000] : List (LockAction 2)).length →
      ∀ (i : Fin 2) (ttl : ℕ),
      ([LockAction.tryAcquire (0 : Fin 2) 1000, LockAction.release 0,
        LockAction.tryAcquire 1 1000] : List (LockAction 2))[idx]?
          = some (.tryAcquire i ttl) →
      ∀ (j : Fin 2) (exp : ℕ),
        (lockRun (lockInit 2) (([LockAction.tryAcquire (0 : Fin 2) 1000,
            LockAction.release 0, LockAction.tryAcquire 1 1000] :
            List (LockAction 2)).take idx)).lock = some (j, exp) →
        (lockRun (lockInit 2) (([LockAction.tryAcquire (0 : Fin 2) 1000,
            LockAction.release 0, LockAction.tryAcquire 1 1000] :
            List (LockAction 2)).take idx)).time < exp) ∧
    (∀ i j : Fin 2,
      (lockRun (lockInit 2) [LockAction.tryAcquire 0 1000, LockAction.release 0,
        LockAction.tryAcquire 1 1000]).phase i = LockPhase.holder →
      (lockRun (lockInit 2) [LockAction.tryAcquire 0 1000, LockAction.release 0,
        LockAction.tryAcquire 1 1000]).phase j = LockPhase.holder → i = j) := by
  have hsafe : ∀ idx, idx < ([LockAction.tryAcquire (0 : Fin 2) 1000,
      LockAction.release 0, LockAction.tryAcquire 1 1000] :
      List (LockAction 2)).length →
      ∀ (i : Fin 2) (ttl : ℕ),
      ([LockAction.tryAcquire (0 : Fin 2) 1000, LockAction.release 0,
        LockAction.tryAcquire 1 1000] : List (LockAction 2))[idx]?
          = some (.tryAcquire i ttl) →
      ∀ (j : Fin 2) (exp : ℕ),
        (lockRun (lockInit 2) (([LockAction.tryAcquire (0 : Fin 2) 1000,
            LockAction.release 0, LockAction.tryAcquire 1 1000] :
            List (LockAction 2)).take idx)).lock = some (j, exp) →
        (lockRun (lockInit 2) (([LockAction.tryAcquire (0 : Fin 2) 1000,
            LockAction.release 0, LockAction.tryAcquire 1 1000] :
            List (LockAction 2)).take idx)).time < exp := by
    intro idx hidx
    have h3 : idx < 3 := by simpa using hidx
    interval_cases idx <;> intro i ttl hact j exp hlk <;>
      simp_all [lockRun, lockStep, lockInit]
  exact ⟨hsafe, lock_at_most_one_holder 2 _ hsafe⟩

/-- If the value appears at time `D ≤ deadline` and the loop is still
running (`now < deadline`) with enough fuel, polling finds it. -/
theorem pollLoop_finds {V : Type} (v : V) (D R deadline : ℕ) (hR : 1 ≤ R) :
    ∀ (fuel now : ℕ), now < deadline → D ≤ deadline → deadline - now ≤ fuel →
      pollLoop (fun t => if D ≤ t then some v else none) R deadline fuel now
        = some v := by
  intro fuel
  induction fuel with
  | zero => intro now h1 _ h3; omega
  | succ fuel ih =>
    intro now h1 h2 h3
    rw [pollLoop, if_pos h1]
    by_cases hD : D ≤ now + R
    · simp [hD]
    · rw [if_neg hD]
      exact ih (now + R) (by omega) h2 (by omega)

/-- **C1** (amended): `N ≥ 1` concurrent `getOrSetSafe` calls on a cold
key, loader slower than `retryInterval` *and completing within
`waitTimeout`*: exactly one loader invocation, and every caller returns
the loader's value. -/
theorem stampede_single_flight {V : Type} (N D R W : ℕ) (v : V)
    (hN : 1 ≤ N) (hR : 1 ≤ R) (hDR : R < D) (hDW : D ≤ W) :
    (stampedeRun N D R W v).1 = 1 ∧
    (stampedeRun N D R W v).2.length = N ∧
    ∀ x ∈ (stampedeRun N D R W v).2, x = v := by
  have hfound : waiterWait (fun t => if D ≤ t then some v else none) R W 0
      = some v := by
    apply pollLoop_finds v D R (0 + W) hR (W + 1) 0 (by omega) (by omega) (by omega)
  simp only [stampedeRun]
  rw [hfound]
  refine ⟨rfl, ?_, ?_⟩
  · simp [List.length_replicate]
    omega
  · intro x hx
    simp at hx
    rcases hx with h | h
    · exact h
    · exact h.2

/-- **C1** (counterexample to the claim as stated): with the default
`retryInterval = 50` ms and `waitTimeout = 5000` ms, a loader slower than
`retryInterval` but slower than the wait timeout too (6000 ms) causes both
of 2 concurrent callers to invoke the loader: the waiter's poll loop times
out before the value appears and it falls back to loading itself. -/
theorem stampede_single_flight_counterexample :
    (1 : ℕ) ≤ 2 ∧ (50 : ℕ) < 6000 ∧
    (stampedeRun 2 6000 50 5000 (42 : ℕ)).1 = 2 := by
  refine ⟨by decide, by decide, ?_⟩
  decide

/-- Concrete instantiation of `stampede_single_flight`: 3 callers,
loader 120 ms, poll every 50 ms, wait up to 5000 ms. -/
theorem stampede_single_flight_witness :
    ((1 : ℕ) ≤ 3 ∧ (1 : ℕ) ≤ 50 ∧ (50 : ℕ) < 120 ∧ (120 : ℕ) ≤ 5000) ∧
    ((stampedeRun 3 120 50 5000 (42 : ℕ)).1 = 1 ∧
     (stampedeRun 3 120 50 5000 (42 : ℕ)).2.length = 3 ∧
     ∀ x ∈ (stampedeRun 3 120 50 5000 (42 : ℕ)).2, x = 42) :=
  ⟨⟨by decide, by decide, by decide, by decide⟩,
    stampede_single_flight 3 120 50 5000 42 (by decide) (by decide) (by decide)
      (by decide)⟩

theorem parseHexDigit_digitChar : ∀ d, d < 16 → parseHexDigit (Nat.digitChar d) = some d := by
  decide

theorem digitChar_isDigit_lt10 : ∀ d, d < 10 → (Nat.digitChar d).isDigit = true := by
  decide

theorem digitChar_toNat_lt10 : ∀ d, d < 10 → (Nat.digitChar d).toNat = d + 48 := by
  decide

theorem natToString_data (n : ℕ) : (natToString n).data =
    if n = 0 then ['0'] else ((Nat.digits 10 n).map Nat.digitChar).reverse := by
  unfold natToString
  split_ifs with h
  · rfl
  · show natCharsAux n n [] = _
    rw [natCharsAux_eq n n [] le_rfl, List.append_nil]

theorem natChars_ne_nil (n : ℕ) : natChars n ≠ [] := by
  rw [natChars, natToString_data]
  split_ifs with h
  · simp
  · simp [Nat.digits_ne_nil_iff_ne_zero.mpr h]

theorem natChars_all_digits (n : ℕ) : ∀ c ∈ natChars n, c.isDigit = true := by
  rw [natChars, natToString_data]
  split_ifs with h
  · intro c hc
    simp at hc
    subst hc
    decide
  · intro c hc
    rw [List.mem_reverse] at hc
    obtain ⟨d, hd, rfl⟩ := List.mem_map.mp hc
    exact digitChar_isDigit_lt10 d (Nat.digits_lt_base (by norm_num) hd)

theorem digsToNat_rev (ds : List ℕ) (hds : ∀ d ∈ ds, d < 10) :
    digsToNat ((ds.map Nat.digitChar).reverse) = Nat.ofDigits 10 ds := by
  induction ds with
  | nil => rfl
  | cons d ds ih =>
    have hd : d < 10 := hds d (by simp)
    have hds' : ∀ d2 ∈ ds, d2 < 10 := fun d2 h2 => hds d2 (by simp [h2])
    rw [List.map_cons, List.reverse_cons]
    unfold digsToNat
    rw [List.foldl_append]
    have hprev : (ds.map Nat.digitChar).reverse.foldl
        (fun a c => 10 * a + (c.toNat - 48)) 0 = Nat.ofDigits 10 ds := by
      have := ih hds'
      unfold digsToNat at this
      exact this
    rw [hprev, Nat.ofDigits_cons]
    simp only [List.foldl_cons, List.foldl_nil]
    rw [digitChar_toNat_lt10 d hd]
    omega

theorem digsToNat_natChars (n : ℕ) : digsToNat (natChars n) = n := by
  rw [natChars, natToString_data]
  split_ifs with h
  · subst h; rfl
  · rw [digsToNat_rev _ (fun d hd => Nat.digits_lt_base (by norm_num) hd),
      Nat.ofDigits_digits]

theorem takeWhile_append_all (p : Char → Bool) :
    ∀ (A rest : List Char), (∀ c ∈ A, p c = true) →
      (∀ c ∈ rest.head?, p c = false) →
      (A ++ rest).takeWhile p = A ∧ (A ++ rest).dropWhile p = rest := by
  intro A
  induction A with
  | nil =>
    intro rest _ hrest
    cases rest with
    | nil => exact ⟨rfl, rfl⟩
    | cons c cs =>
      have hc : p c = false := hrest c (by simp)
      simp [List.takeWhile, List.dropWhile, hc]
  | cons a A ih =>
    intro rest hA hrest
    have ha : p a = true := hA a (by simp)
    have hA' : ∀ c ∈ A, p c = true := fun c hc => hA c (by simp [hc])
    obtain ⟨h1, h2⟩ := ih rest hA' hrest
    simp [List.takeWhile, List.dropWhile, ha, h1, h2]

theorem parseNatNum_spec (n : ℕ) (rest : List Char)
    (hrest : ∀ c ∈ rest.head?, c.isDigit = false) :
    parseNatNum (natChars n ++ rest) = some (n, rest) := by
  obtain ⟨h1, h2⟩ := takeWhile_append_all (fun c => c.isDigit) (natChars n) rest
    (natChars_all_digits n) hrest
  rw [parseNatNum]
  simp only [h1, h2]
  rw [if_neg (by simpa [List.isEmpty_iff] using natChars_ne_nil n)]
  rw [digsToNat_natChars]

theorem jsEscapeChar_length_pos (c : Char) : 1 ≤ (jsEscapeChar c).length := by
  unfold jsEscapeChar
  split_ifs <;> simp

theorem parseStringBody_spec :
    ∀ (s : List Char) (fuel : ℕ) (rest : List Char),
      (jsEscape s).length + 1 ≤ fuel →
      parseStringBody fuel (jsEscape s ++ '"' :: rest) = some (s, rest) := by
  intro s
  induction s with
  | nil =>
    intro fuel rest hf
    cases fuel with
    | zero => omega
    | succ f => rfl
  | cons c cs ih =>
    intro fuel rest hf
    cases fuel with
    | zero =>
      exfalso
      have := jsEscapeChar_length_pos c
      rw [jsEscape, List.length_append] at hf
      omega
    | succ f =>
      have hb : (jsEscape cs).length + 1 ≤ f := by
        have := jsEscapeChar_length_pos c
        rw [jsEscape, List.length_append] at hf
        omega
      rw [jsEscape, List.append_assoc]
      unfold jsEscapeChar
      split_ifs with h1 h2 h3 h4 h5 h6 h7 h8
      · subst h1
        simp [parseStringBody, unescapeChar, ih f rest hb]
      · subst h2
        simp [parseStringBody, unescapeChar, ih f rest hb]
      · subst h3
        simp [parseStringBody, unescapeChar, ih f rest hb]
      · subst h4
        simp [parseStringBody, unescapeChar, ih f rest hb]
      · subst h5
        simp [parseStringBody, unescapeChar, ih f rest hb]
      · subst h6
        simp [parseStringBody, unescapeChar, ih f rest hb]
      · subst h7
        simp [parseStringBody, unescapeChar, ih f rest hb]
      · -- control character: the `\u00XX` escape
        have hhi : c.toNat / 16 < 16 := by omega
        have hlo : c.toNat % 16 < 16 := by omega
        have hcode : ((0 * 16 + 0) * 16 + c.toNat / 16) * 16 + c.toNat % 16
            = c.toNat := by omega
        have h0 : parseHexDigit '0' = some 0 := by decide
        simp only [List.cons_append, List.nil_append]
        simp [parseStringBody, h0, parseHexDigit_digitChar _ hhi,
          parseHexDigit_digitChar _ hlo, ih f rest hb]
        rw [show c.toNat / 16 * 16 + c.toNat % 16 = c.toNat by omega,
          Char.ofNat_toNat]
      · -- plain character
        simp [parseStringBody, h1, h2, ih f rest hb]

theorem ne_of_isDigit (c d : Char) (h : c.isDigit = true) (hd : d.isDigit = false) :
    c ≠ d := by
  intro he
  rw [he, hd] at h
  exact Bool.false_ne_true h

theorem jsonStringify_ne_nil (v : JVal) : jsonStringify v ≠ [] := by
  cases v with
  | jnull => simp [jsonStringify]
  | jbool b => cases b <;> simp [jsonStringify]
  | jnum i =>
    cases i with
    | ofNat n => simpa [jsonStringify, intChars] using natChars_ne_nil n
    | negSucc m => simp [jsonStringify, intChars]
  | jstr s => simp [jsonStringify]
  | jarr xs => cases xs <;> simp [jsonStringify]
  | jobj fs => cases fs <;> simp [jsonStringify]

theorem jsonStringify_head_ne (v : JVal) (c : Char) (l : List Char)
    (h : jsonStringify v = c :: l) : c ≠ ']' ∧ c ≠ Char.ofNat 125 := by
  cases v with
  | jnull =>
    injection h with h1 _
    subst h1
    exact ⟨by decide, by decide⟩
  | jbool b =>
    cases b <;> (injection h with h1 _; subst h1; exact ⟨by decide, by decide⟩)
  | jnum i =>
    cases i with
    | ofNat n =>
      have hmem : c ∈ natChars n := by
        have : natChars n = c :: l := h
        rw [this]
        simp
      have hc := natChars_all_digits n c hmem
      exact ⟨ne_of_isDigit c ']' hc (by decide),
        ne_of_isDigit c (Char.ofNat 125) hc (by decide)⟩
    | negSucc m =>
      injection h with h1 _
      subst h1
      exact ⟨by decide, by decide⟩
  | jstr s =>
    injection h with h1 _
    subst h1
    exact ⟨by decide, by decide⟩
  | jarr xs =>
    cases xs <;> (injection h with h1 _; subst h1; exact ⟨by decide, by decide⟩)
  | jobj fs =>
    cases fs <;> (injection h with h1 _; subst h1; exact ⟨by decide, by decide⟩)

theorem printArrItems_shape (x : JVal) (xs : List JVal) :
    ∃ t, printArrItems (x :: xs) = jsonStringify x ++ t := by
  cases xs with
  | nil => exact ⟨[], by simp [printArrItems]⟩
  | cons y ys => exact ⟨',' :: printArrItems (y :: ys), by simp [printArrItems]⟩

theorem printObjItems_shape (f0 : String × JVal) (fs : List (String × JVal)) :
    ∃ t, printObjItems (f0 :: fs) = '"' :: t := by
  cases fs with
  | nil => exact ⟨_, rfl⟩
  | cons g gs => exact ⟨_, rfl⟩

theorem parseVal_step (fuel : ℕ) (c : Char) (cs : List Char) :
    parseVal (fuel + 1) (c :: cs) =
      (if c = 'n' then
        match cs with
        | 'u' :: 'l' :: 'l' :: rest => some (.jnull, rest)
        | _ => none
      else if c = 't' then
        match cs with
        | 'r' :: 'u' :: 'e' :: rest => some (.jbool true, rest)
        | _ => none
      else if c = 'f' then
        match cs with
        | 'a' :: 'l' :: 's' :: 'e' :: rest => some (.jbool false, rest)
        | _ => none
      else if c = '"' then
        (parseStringBody (cs.length + 1) cs).map (fun r => (.jstr (String.mk r.1), r.2))
      else if c = '-' then
        (parseNatNum cs).map (fun r => (.jnum (-(r.1 : ℤ)), r.2))
      else if c = '[' then
        match cs with
        | [] => none
        | c2 :: rest2 =>
          if c2 = ']' then some (.jarr [], rest2)
          else (parseArrItems fuel (c2 :: rest2)).map (fun r => (.jarr r.1, r.2))
      else if c = Char.ofNat 123 then
        match cs with
        | [] => none
        | c2 :: rest2 =>
          if c2 = Char.ofNat 125 then some (.jobj [], rest2)
          else (parseObjItems fuel (c2 :: rest2)).map (fun r => (.jobj r.1, r.2))
      else if c.isDigit then
        (parseNatNum (c :: cs)).map (fun r => (.jnum (r.1 : ℤ), r.2))
      else none) := rfl

theorem parseArrItems_step (fuel : ℕ) (cs : List Char) :
    parseArrItems (fuel + 1) cs =
      (match parseVal fuel cs with
      | none => none
      | some (v, rest) =>
        match rest with
        | [] => none
        | c2 :: rest2 =>
          if c2 = ',' then (parseArrItems fuel rest2).map (fun r => (v :: r.1, r.2))
          else if c2 = ']' then some ([v], rest2)
          else none) := rfl

theorem parseObjItems_step (fuel : ℕ) (c : Char) (cs : List Char) :
    parseObjItems (fuel + 1) (c :: cs) =
      (if c = '"' then
        match parseStringBody (cs.length + 1) cs with
        | none => none
        | some (key, rest) =>
          match rest with
          | [] => none
          | c2 :: rest2 =>
            if c2 = ':' then
              match parseVal fuel rest2 with
              | none => none
              | some (v, rest3) =>
                match rest3 with
                | [] => none
                | c3 :: rest4 =>
                  if c3 = ',' then
                    (parseObjItems fuel rest4).map (fun r =>
                      ((String.mk key, v) :: r.1, r.2))
                  else if c3 = Char.ofNat 125 then
                    some ([(String.mk key, v)], rest4)
                  else none
            else none
      else none) := rfl

/-- Print–parse roundtrip, mutually over values, array items and object
members, by strong induction on the parser fuel. -/
theorem parse_print : ∀ fuel : ℕ,
    (∀ (v : JVal) (rest : List Char), (jsonStringify v).length + 1 ≤ fuel →
      (∀ c ∈ rest.head?, c.isDigit = false) →
      parseVal fuel (jsonStringify v ++ rest) = some (v, rest)) ∧
    (∀ (xs : List JVal) (rest : List Char), xs ≠ [] →
      (printArrItems xs).length + 2 ≤ fuel →
      parseArrItems fuel (printArrItems xs ++ ']' :: rest) = some (xs, rest)) ∧
    (∀ (fs : List (String × JVal)) (rest : List Char), fs ≠ [] →
      (printObjItems fs).length + 2 ≤ fuel →
      parseObjItems fuel (printObjItems fs ++ Char.ofNat 125 :: rest)
        = some (fs, rest)) := by
  intro fuel
  induction fuel using Nat.strong_induction_on with
  | _ fuel ih =>
  refine ⟨?_, ?_, ?_⟩
  · intro v rest hsz hrest
    cases fuel with
    | zero => omega
    | succ f =>
    have ihf := ih f (Nat.lt_succ_self f)
    cases v with
    | jnull => rfl
    | jbool b => cases b <;> rfl
    | jnum i =>
      cases i with
      | ofNat n =>
        obtain ⟨c, l, hcl⟩ : ∃ c l, natChars n = c :: l := by
          cases hnc : natChars n with
          | nil => exact absurd hnc (natChars_ne_nil n)
          | cons c l => exact ⟨c, l, rfl⟩
        have hcdig : c.isDigit = true := natChars_all_digits n c (by rw [hcl]; simp)
        show parseVal (f + 1) (natChars n ++ rest) = _
        rw [hcl, List.cons_append, parseVal_step]
        have hpn : parseNatNum (c :: (l ++ rest)) = some (n, rest) := by
          rw [show c :: (l ++ rest) = natChars n ++ rest by rw [hcl, List.cons_append]]
          exact parseNatNum_spec n rest hrest
        simp [ne_of_isDigit c 'n' hcdig (by decide),
          ne_of_isDigit c 't' hcdig (by decide),
          ne_of_isDigit c 'f' hcdig (by decide),
          ne_of_isDigit c '"' hcdig (by decide),
          ne_of_isDigit c '-' hcdig (by decide),
          ne_of_isDigit c '[' hcdig (by decide),
          ne_of_isDigit c (Char.ofNat 123) hcdig (by decide), hcdig, hpn]
      | negSucc m =>
        show parseVal (f + 1) (('-' :: natChars (m + 1)) ++ rest) = _
        rw [List.cons_append, parseVal_step]
        rw [parseNatNum_spec (m + 1) rest hrest]
        simp [Int.negSucc_eq]
    | jstr s =>
      show parseVal (f + 1) (('"' :: (jsEscape s.data ++ ['"'])) ++ rest) = _
      rw [List.cons_append, List.append_assoc, List.singleton_append, parseVal_step]
      rw [parseStringBody_spec s.data _ rest (by simp [List.length_append])]
      rfl
    | jarr xs =>
      cases xs with
      | nil => rfl
      | cons x xs2 =>
        have hsz2 : (printArrItems (x :: xs2)).length + 2 ≤ f := by
          have hlen : (jsonStringify (JVal.jarr (x :: xs2))).length
              = (printArrItems (x :: xs2)).length + 2 := by
            simp [jsonStringify]
          omega
        obtain ⟨t, ht⟩ := printArrItems_shape x xs2
        obtain ⟨c2, l2, hcl⟩ : ∃ c2 l2, jsonStringify x = c2 :: l2 := by
          cases hnc : jsonStringify x with
          | nil => exact absurd hnc (jsonStringify_ne_nil x)
          | cons c2 l2 => exact ⟨c2, l2, rfl⟩
        have hne : c2 ≠ ']' := (jsonStringify_head_ne x c2 l2 hcl).1
        have hshape : printArrItems (x :: xs2) ++ ']' :: rest
            = c2 :: (l2 ++ (t ++ ']' :: rest)) := by
          rw [ht, hcl]
          simp [List.append_assoc]
        have harr := ihf.2.1 (x :: xs2) rest (by simp) hsz2
        rw [hshape] at harr
        show parseVal (f + 1) (('[' :: (printArrItems (x :: xs2) ++ [']'])) ++ rest) = _
        rw [List.cons_append, List.append_assoc, List.singleton_append, hshape,
          parseVal_step]
        simp [hne, harr]
    | jobj fs =>
      cases fs with
      | nil => rfl
      | cons f0 fs2 =>
        have hsz2 : (printObjItems (f0 :: fs2)).length + 2 ≤ f := by
          have hlen : (jsonStringify (JVal.jobj (f0 :: fs2))).length
              = (printObjItems (f0 :: fs2)).length + 2 := by
            simp [jsonStringify]
          omega
        obtain ⟨t, ht⟩ := printObjItems_shape f0 fs2
        have hshape : printObjItems (f0 :: fs2) ++ Char.ofNat 125 :: rest
            = '"' :: (t ++ Char.ofNat 125 :: rest) := by
          rw [ht]
          simp
        have hobj := ihf.2.2 (f0 :: fs2) rest (by simp) hsz2
        rw [hshape] at hobj
        show parseVal (f + 1)
          ((Char.ofNat 123 :: (printObjItems (f0 :: fs2) ++ [Char.ofNat 125])) ++ rest)
            = _
        rw [List.cons_append, List.append_assoc, List.singleton_append, hshape,
          parseVal_step]
        simp [hobj]
  · intro xs rest hne hsz
    cases fuel with
    | zero => omega
    | succ f =>
    have ihf := ih f (Nat.lt_succ_self f)
    cases xs with
    | nil => exact absurd rfl hne
    | cons x xs2 =>
    cases xs2 with
    | nil =>
      have hx : (jsonStringify x).length + 1 ≤ f := by
        have : printArrItems [x] = jsonStringify x := rfl
        rw [this] at hsz
        omega
      show parseArrItems (f + 1) (jsonStringify x ++ ']' :: rest) = _
      rw [parseArrItems_step,
        ihf.1 x (']' :: rest) hx (by intro c hc; simp at hc; subst hc; decide)]
      rfl
    | cons y ys =>
      have hlen : (printArrItems (x :: y :: ys)).length
          = (jsonStringify x).length + 1 + (printArrItems (y :: ys)).length := by
        simp [printArrItems]
        omega
      have hposx : 1 ≤ (jsonStringify x).length :=
        List.length_pos.mpr (jsonStringify_ne_nil x)
      have hposy : 1 ≤ (printArrItems (y :: ys)).length := by
        obtain ⟨t, ht⟩ := printArrItems_shape y ys
        rw [ht, List.length_append]
        have := List.length_pos.mpr (jsonStringify_ne_nil y)
        omega
      have hx : (jsonStringify x).length + 1 ≤ f := by omega
      have hrest2 : (printArrItems (y :: ys)).length + 2 ≤ f := by omega
      show parseArrItems (f + 1)
        ((jsonStringify x ++ ',' :: printArrItems (y :: ys)) ++ ']' :: rest) = _
      rw [List.append_assoc, List.cons_append, parseArrItems_step,
        ihf.1 x (',' :: (printArrItems (y :: ys) ++ ']' :: rest)) hx
          (by intro c hc; simp at hc; subst hc; decide)]
      simp [ihf.2.1 (y :: ys) rest (by simp) hrest2]
  · intro fs rest hne hsz
    cases fuel with
    | zero => omega
    | succ f =>
    have ihf := ih f (Nat.lt_succ_self f)
    cases fs with
    | nil => exact absurd rfl hne
    | cons f0 fs2 =>
    obtain ⟨k, v0⟩ := f0
    cases fs2 with
    | nil =>
      have hv : (jsonStringify v0).length + 1 ≤ f := by
        have hlen : (printObjItems [(k, v0)]).length
            = (jsonStringify v0).length + (jsEscape k.data).length + 3 := by
          simp [printObjItems, List.length_append]
          omega
        omega
      show parseObjItems (f + 1)
        (('"' :: (jsEscape k.data ++ '"' :: ':' :: jsonStringify v0))
          ++ Char.ofNat 125 :: rest) = some ([(k, v0)], rest)
      have hsplit : (jsEscape k.data ++ '"' :: ':' :: jsonStringify v0)
          ++ Char.ofNat 125 :: rest
          = jsEscape k.data
            ++ '"' :: (':' :: (jsonStringify v0 ++ Char.ofNat 125 :: rest)) := by
        simp [List.append_assoc]
      rw [List.cons_append, hsplit, parseObjItems_step]
      rw [parseStringBody_spec k.data _ _ (by simp [List.length_append])]
      simp [ihf.1 v0 (Char.ofNat 125 :: rest) hv
        (by intro c hc; simp at hc; subst hc; decide)]
    | cons g gs =>
      have hlen : (printObjItems ((k, v0) :: g :: gs)).length
          = (jsonStringify v0).length + (jsEscape k.data).length + 4
            + (printObjItems (g :: gs)).length := by
        simp [printObjItems, List.length_append]
        omega
      have hposg : 1 ≤ (printObjItems (g :: gs)).length := by
        obtain ⟨t, ht⟩ := printObjItems_shape g gs
        rw [ht]
        simp
      have hv : (jsonStringify v0).length + 1 ≤ f := by omega
      have hrest2 : (printObjItems (g :: gs)).length + 2 ≤ f := by omega
      show parseObjItems (f + 1)
        ((('"' :: (jsEscape k.data ++ '"' :: ':' :: jsonStringify v0))
          ++ ',' :: printObjItems (g :: gs)) ++ Char.ofNat 125 :: rest)
        = some ((k, v0) :: g :: gs, rest)
      have hsplit : (('"' :: (jsEscape k.data ++ '"' :: ':' :: jsonStringify v0))
          ++ ',' :: printObjItems (g :: gs)) ++ Char.ofNat 125 :: rest
          = '"' :: (jsEscape k.data ++ '"' :: (':' :: (jsonStringify v0
              ++ ',' :: (printObjItems (g :: gs) ++ Char.ofNat 125 :: rest)))) := by
        simp [List.append_assoc]
      rw [hsplit, parseObjItems_step]
      rw [parseStringBody_spec k.data _ _ (by simp [List.length_append])]
      have hval := ihf.1 v0
        (',' :: (printObjItems (g :: gs) ++ Char.ofNat 125 :: rest)) hv
        (by intro c hc; simp at hc; subst hc; decide)
      simp [hval, ihf.2.2 (g :: gs) rest (by simp) hrest2]

/-- `JSON.parse (JSON.stringify v)` recovers `v` exactly, for every value
of the modelled domain. -/
theorem jsonParse_jsonSer (v : JVal) : jsonParse (jsonSer v) = some v := by
  have h := (parse_print ((jsonStringify v).length + 1)).1 v []
    (le_refl _) (by simp)
  rw [List.append_nil] at h
  show (match parseVal ((jsonStringify v).length + 1) (jsonStringify v) with
    | some (w, []) => some w
    | _ => none) = some v
  rw [h]

/-- C10 counterexample: after `set(k, null)` with the default JSON
serializer the key exists in Redis (the raw string `"null"` is stored),
yet `get(k)` returns `null` — reported as a cache miss — because
`JSON.parse` yields `null` and `get`'s `raw === null` test cannot
distinguish that from an absent key.  Consequently `getOrSet` re-invokes
the loader and returns the loader's value instead of the stored `null`. -/
theorem cache_roundtrip_counterexample :
    cacheHas "cache"
      (cacheSet "cache" jsonSer (fun _ => none) "k" JVal.jnull) "k" = true ∧
    cacheGet "cache" jsonDeser
      (cacheSet "cache" jsonSer (fun _ => none) "k" JVal.jnull) "k"
      = (none : Option JVal) ∧
    (getOrSet "cache" jsonSer jsonDeser
        (cacheSet "cache" jsonSer (fun _ => none) "k" JVal.jnull) "k"
        (Except.ok (JVal.jbool true) : Except Unit JVal)).1
      = Except.ok (some (JVal.jbool true)) :=
  ⟨rfl, rfl, rfl⟩

/-- C10 (corrected): with the default JSON serializer/deserializer,
set-then-get returns exactly the stored value for every value other than
`null` — serialization itself is lossless on the whole domain
(`JSON.parse ∘ JSON.stringify = some`) — but a stored `null` comes back
as `none` (a reported miss), because `Cache.get` signals a miss with the
same `null` that `JSON.parse "null"` produces. -/
theorem cache_roundtrip (pfx k : String) (st : CStore) (v : JVal)
    (hv : v ≠ JVal.jnull) :
    cacheGet pfx jsonDeser (cacheSet pfx jsonSer st k v) k = some v ∧
    jsonParse (jsonSer v) = some v ∧
    cacheGet pfx jsonDeser (cacheSet pfx jsonSer st k JVal.jnull) k
      = none := by
  have hser := jsonParse_jsonSer v
  refine ⟨?_, hser, ?_⟩
  · have hred : cacheGet pfx jsonDeser (cacheSet pfx jsonSer st k v) k
        = jsonDeser (jsonSer v) := by
      simp [cacheGet, cacheSet, upd]
    rw [hred]
    unfold jsonDeser
    rw [hser]
    cases v with
    | jnull => exact absurd rfl hv
    | jbool b => rfl
    | jnum n => rfl
    | jstr s => rfl
    | jarr xs => rfl
    | jobj fs => rfl
  · have hred : cacheGet pfx jsonDeser (cacheSet pfx jsonSer st k JVal.jnull) k
        = jsonDeser (jsonSer JVal.jnull) := by
      simp [cacheGet, cacheSet, upd]
    rw [hred]
    rfl

/-- Witness for `cache_roundtrip` at `v = true` in the empty store. -/
theorem cache_roundtrip_witness :
    (JVal.jbool true ≠ JVal.jnull) ∧
    (cacheGet "cache" jsonDeser
        (cacheSet "cache" jsonSer (fun _ => none) "user:1" (JVal.jbool true))
        "user:1" = some (JVal.jbool true) ∧
      jsonParse (jsonSer (JVal.jbool true)) = some (JVal.jbool true) ∧
      cacheGet "cache" jsonDeser
        (cacheSet "cache" jsonSer (fun _ => none) "user:1" JVal.jnull)
        "user:1" = none) :=
  ⟨fun h => JVal.noConfusion h,
   cache_roundtrip "cache" "user:1" (fun _ => none) (JVal.jbool true)
     (fun h => JVal.noConfusion h)⟩

end Upredis
